import Mathlib

/-!
Verification development for the CWCOT detector (`src/main.js`).

Strings are modelled as `List Char`.  JavaScript regular expressions are
embedded as nondeterministic matchers over a state `(previous consumed
character, remaining input)`; the previous character is threaded so that the
word-boundary assertion `\b` can be expressed.  The `/i` flag is modelled by
comparing ASCII-lowercased input characters against lowercase pattern
characters (all patterns in the source are ASCII).  Quantifier alternatives
are produced in the backtracking order of the JavaScript engine (greedy:
longer consumption first, left alternative first), which matters only for
capture extraction.
-/

set_option maxHeartbeats 1000000

namespace Cwcot

/-- JavaScript `\s` character class (WhiteSpace plus LineTerminator),
given by explicit code points. -/
def isJsSpace (c : Char) : Bool :=
  c = ' ' || c = '\t' || c = '\n' || c = Char.ofNat 11 || c = Char.ofNat 12 ||
  c = '\r' || c = Char.ofNat 160 || c = Char.ofNat 5760 ||
  (Char.ofNat 8192 <= c && c <= Char.ofNat 8202) ||
  c = Char.ofNat 8232 || c = Char.ofNat 8233 ||
  c = Char.ofNat 8239 || c = Char.ofNat 8287 || c = Char.ofNat 12288 ||
  c = Char.ofNat 65279

/-- JavaScript `\w` character class. -/
def isWordChar (c : Char) : Bool :=
  ('a' ≤ c && c ≤ 'z') || ('A' ≤ c && c ≤ 'Z') || ('0' ≤ c && c ≤ '9') || c = '_'

/-- JavaScript `[0-9]`. -/
def isDigitCh (c : Char) : Bool := '0' ≤ c && c ≤ '9'

/-- JavaScript `.` (any char except line terminators). -/
def isDotCh (c : Char) : Bool :=
  !(c = '\n' || c = '\r' || c = Char.ofNat 8232 || c = Char.ofNat 8233)

/-- Matcher state: last consumed character (for `\b`) and remaining input. -/
abbrev MSt := Option Char × List Char

/-- A regex fragment: maps a state to the states reachable after consuming a
prefix of the remaining input, in backtracking order. -/
abbrev Mch := MSt → List MSt

/-- Consume one character of a class. -/
def chCls (p : Char → Bool) : Mch := fun st =>
  match st with
  | (_, []) => []
  | (_, c :: rest) => if p c then [(some c, rest)] else []

/-- The empty fragment. -/
def mEps : Mch := fun st => [st]

/-- Sequencing. -/
def mSeq (a b : Mch) : Mch := fun st => (a st).flatMap b

/-- Alternation (left first). -/
def mAlt (a b : Mch) : Mch := fun st => a st ++ b st

/-- End-of-input anchor `$`. -/
def mEnd : Mch := fun st =>
  match st with
  | (pc, []) => [(pc, [])]
  | _ => []

/-- Word-character test on the previous-character context. -/
def wordAt : Option Char → Bool
  | none => false
  | some c => isWordChar c

/-- Word-character test on the next input character. -/
def headWord : List Char → Bool
  | [] => false
  | c :: _ => isWordChar c

/-- Word boundary `\b`. -/
def mWb : Mch := fun st =>
  if wordAt st.1 ≠ headWord st.2 then [st] else []

/-- Greedy Kleene star over a character class (longest consumption first). -/
def clsStarG (p : Char → Bool) : Option Char → List Char → List MSt
  | pc, [] => [(pc, [])]
  | pc, c :: rest =>
    (if p c then clsStarG p (some c) rest else []) ++ [(pc, c :: rest)]

/-- `[p]*`. -/
def mStar (p : Char → Bool) : Mch := fun st => clsStarG p st.1 st.2

/-- `[p]+`. -/
def mPlus (p : Char → Bool) : Mch := mSeq (chCls p) (mStar p)

/-- Greedy option `a?`. -/
def mOpt (a : Mch) : Mch := fun st => a st ++ [st]

/-- Case-insensitive literal (pattern given in lowercase). -/
def litCI (w : List Char) : Mch :=
  w.foldr (fun c acc => mSeq (chCls (fun x => x.toLower = c)) acc) mEps

/-- `re.test`: try to match at each start position, left to right. -/
def testAux (m : Mch) : Option Char → List Char → Bool
  | pc, [] => !(m (pc, [])).isEmpty
  | pc, c :: rest => !(m (pc, c :: rest)).isEmpty || testAux m (some c) rest

/-- `re.test(s)` for a whole string. -/
def testM (m : Mch) (s : List Char) : Bool := testAux m none s

/-- One maximal-whitespace-run-to-single-space collapsing step, parameterised
by the whitespace class; the flag records whether the previous character was
part of a run (JS `replace(/p+/g, ' ')`). -/
def collapseAux (p : Char → Bool) : Bool → List Char → List Char
  | _, [] => []
  | inRun, c :: rest =>
    if p c then
      (if inRun then collapseAux p true rest else ' ' :: collapseAux p true rest)
    else c :: collapseAux p false rest

/-- JS `replace(/\s+/g, ' ')`. -/
def collapseWS (l : List Char) : List Char := collapseAux isJsSpace false l

/-- The class `[^\S\r\n]` (whitespace except CR/LF). -/
def isSpNoNl (c : Char) : Bool := isJsSpace c && !(c = '\r') && !(c = '\n')

/-- JS `String.prototype.trim`. -/
def jsTrim (l : List Char) : List Char :=
  ((l.dropWhile isJsSpace).reverse.dropWhile isJsSpace).reverse

/-- `normText` (src/main.js line 110): drop soft hyphens, unify dashes,
collapse non-newline whitespace, trim. -/
def normText (s : List Char) : List Char :=
  jsTrim (collapseAux isSpNoNl false
    (((s.filter (fun c => !(c = Char.ofNat 173))).map
      (fun c => if Char.ofNat 8208 <= c && c <= Char.ofNat 8213 then '-' else c))))

/-- ASCII lowercasing of a string (model of `toLowerCase` on ASCII data). -/
def lowerStr (l : List Char) : List Char := l.map Char.toLower

/- ------------------------------------------------------------------ -/
/- Label classification (src/main.js lines 352-359)                    -/
/- ------------------------------------------------------------------ -/

/-- `/prohibited\s+sales\s+addendum/`. -/
def prohibitedRe : Mch :=
  mSeq (litCI ("prohibited".toList))
    (mSeq (mPlus isJsSpace)
      (mSeq (litCI ("sales".toList))
        (mSeq (mPlus isJsSpace) (litCI ("addendum".toList)))))

/-- `[\s-]` class. -/
def isSpDash (c : Char) : Bool := isJsSpace c || c = '-'

/-- `/\bas[\s-]*is\b.*addendum/`. -/
def asIsRe1 : Mch :=
  mSeq mWb (mSeq (litCI ("as".toList)) (mSeq (mStar isSpDash)
    (mSeq (litCI ("is".toList)) (mSeq mWb
      (mSeq (mStar isDotCh) (litCI ("addendum".toList)))))))

/-- `/as-?is\s+addendum\s+to\s+psa/`. -/
def asIsRe2 : Mch :=
  mSeq (litCI ("as".toList)) (mSeq (mOpt (chCls (fun c => c = '-')))
    (mSeq (litCI ("is".toList)) (mSeq (mPlus isJsSpace)
      (mSeq (litCI ("addendum".toList)) (mSeq (mPlus isJsSpace)
        (mSeq (litCI ("to".toList)) (mSeq (mPlus isJsSpace)
          (litCI ("psa".toList)))))))))

/-- `/purchase\s*agreement\s*addendum\b/`. -/
def paaRe1 : Mch :=
  mSeq (litCI ("purchase".toList)) (mSeq (mStar isJsSpace)
    (mSeq (litCI ("agreement".toList)) (mSeq (mStar isJsSpace)
      (mSeq (litCI ("addendum".toList)) mWb))))

/-- `/addendum\s*to\s*purchase\s*agreement\b/`. -/
def paaRe2 : Mch :=
  mSeq (litCI ("addendum".toList)) (mSeq (mStar isJsSpace)
    (mSeq (litCI ("to".toList)) (mSeq (mStar isJsSpace)
      (mSeq (litCI ("purchase".toList)) (mSeq (mStar isJsSpace)
        (mSeq (litCI ("agreement".toList)) mWb))))))

/-- `/\baddendum\b/`. -/
def genericAddendumRe : Mch := mSeq mWb (mSeq (litCI ("addendum".toList)) mWb)

/-- `/\breview\s+purchase\s+agreement\b|\bfreddie\s+mac\s+occupied\s+psa\b|\bpurchase\s+and\s+sale\s+agreement\b|\bauction\s+purchase\s+agreement\b|\bpsa\b/`. -/
def psaRe : Mch :=
  mAlt
    (mSeq mWb (mSeq (litCI ("review".toList)) (mSeq (mPlus isJsSpace)
      (mSeq (litCI ("purchase".toList)) (mSeq (mPlus isJsSpace)
        (mSeq (litCI ("agreement".toList)) mWb))))))
    (mAlt
      (mSeq mWb (mSeq (litCI ("freddie".toList)) (mSeq (mPlus isJsSpace)
        (mSeq (litCI ("mac".toList)) (mSeq (mPlus isJsSpace)
          (mSeq (litCI ("occupied".toList)) (mSeq (mPlus isJsSpace)
            (mSeq (litCI ("psa".toList)) mWb))))))))
      (mAlt
        (mSeq mWb (mSeq (litCI ("purchase".toList)) (mSeq (mPlus isJsSpace)
          (mSeq (litCI ("and".toList)) (mSeq (mPlus isJsSpace)
            (mSeq (litCI ("sale".toList)) (mSeq (mPlus isJsSpace)
              (mSeq (litCI ("agreement".toList)) mWb))))))))
        (mAlt
          (mSeq mWb (mSeq (litCI ("auction".toList)) (mSeq (mPlus isJsSpace)
            (mSeq (litCI ("purchase".toList)) (mSeq (mPlus isJsSpace)
              (mSeq (litCI ("agreement".toList)) mWb))))))
          (mSeq mWb (mSeq (litCI ("psa".toList)) mWb)))))

/-- `isPurchaseAgreementAddendumLabel` (src/main.js lines 352-358). -/
def isPurchaseAgreementAddendumLabel (label : List Char) : Bool :=
  let L := jsTrim (collapseWS (lowerStr label))
  if L.isEmpty then false
  else if testM prohibitedRe L then false
  else testM paaRe1 L || testM paaRe2 L

/-- `labelType` (src/main.js line 359); returns the source's string tags. -/
def labelType (label : List Char) : List Char :=
  let L := lowerStr label
  if testM prohibitedRe L then "prohibited".toList
  else if testM asIsRe1 L || testM asIsRe2 L then "asis".toList
  else if isPurchaseAgreementAddendumLabel label then "paa".toList
  else if testM genericAddendumRe L then "generic".toList
  else if testM psaRe L then "psa".toList
  else "other".toList

/- ------------------------------------------------------------------ -/
/- isPdfUrl and toAbs (src/main.js lines 37-49)                        -/
/- ------------------------------------------------------------------ -/

/-- `/\.pdf(\?|$)/i`. -/
def pdfExtRe : Mch :=
  mSeq (litCI (".pdf".toList)) (mAlt (chCls (fun c => c = '?')) mEnd)

/-- `/imgix\.net\/resi\/globalDocuments\//i`. -/
def imgixRe : Mch := litCI ("imgix.net/resi/globaldocuments/".toList)

/-- `isPdfUrl` (src/main.js lines 41-49) on a string argument; the `!u`
falsiness guard is the emptiness test. -/
def isPdfUrlS (s : List Char) : Bool :=
  if s.isEmpty then false
  else if testM pdfExtRe s then true
  else if testM imgixRe s then true
  else false

/-- `isPdfUrl` including the nullish argument case (`null`/`undefined`). -/
def isPdfUrl (u : Option (List Char)) : Bool :=
  match u with
  | none => false
  | some s => isPdfUrlS s

/-- `/^https?:\/\//i` as a prefix test. -/
def startsHttp (s : List Char) : Bool :=
  ("http://".toList.isPrefixOf (lowerStr s)) ||
  ("https://".toList.isPrefixOf (lowerStr s))

/-- JS `base.replace(/\/+$/, '')`: strip trailing slashes. -/
def stripTrailingSlashes (s : List Char) : List Char :=
  (s.reverse.dropWhile (fun c => c = '/')).reverse

/-- JS `href.replace(/^\.?\//, '')`: strip one leading `./` or `/`. -/
def stripDotSlash (s : List Char) : List Char :=
  match s with
  | '.' :: '/' :: r => r
  | '/' :: r => r
  | _ => s

/-- `toAbs` (src/main.js line 37-39). -/
def toAbs (href : List Char) (base : List Char) : List Char :=
  if href.isEmpty then []
  else if startsHttp href then href
  else if ("//".toList.isPrefixOf href) then "https:".toList ++ href
  else if ("/".toList.isPrefixOf href) then stripTrailingSlashes base ++ href
  else stripTrailingSlashes base ++ '/' :: stripDotSlash href

/- ------------------------------------------------------------------ -/
/- detectCWCOTInText (src/main.js line 111)                            -/
/- ------------------------------------------------------------------ -/

/-- `/\bcwcot\b/`. -/
def cwcotRe : Mch := mSeq mWb (mSeq (litCI ("cwcot".toList)) mWb)

/-- `/claims?\s+without\s+conveyance\s+of\s+title/`. -/
def spelledOutRe : Mch :=
  mSeq (litCI ("claim".toList)) (mSeq (mOpt (chCls (fun c => c.toLower = 's')))
    (mSeq (mPlus isJsSpace) (mSeq (litCI ("without".toList))
      (mSeq (mPlus isJsSpace) (mSeq (litCI ("conveyance".toList))
        (mSeq (mPlus isJsSpace) (mSeq (litCI ("of".toList))
          (mSeq (mPlus isJsSpace) (litCI ("title".toList))))))))))

/-- `/real\s+estate\s+purchase\s+addendum\s*\(cwcot\s*property\)/`. -/
def titleRuleRe : Mch :=
  mSeq (litCI ("real".toList)) (mSeq (mPlus isJsSpace)
    (mSeq (litCI ("estate".toList)) (mSeq (mPlus isJsSpace)
      (mSeq (litCI ("purchase".toList)) (mSeq (mPlus isJsSpace)
        (mSeq (litCI ("addendum".toList)) (mSeq (mStar isJsSpace)
          (mSeq (litCI ("(cwcot".toList)) (mSeq (mStar isJsSpace)
            (litCI ("property)".toList)))))))))))

/-- `[- ]` class. -/
def isDashSp (c : Char) : Bool := c = '-' || c = ' '

/-- `/\bsecond\s*[- ]?\s*chance\b/`. -/
def secondChanceRe : Mch :=
  mSeq mWb (mSeq (litCI ("second".toList)) (mSeq (mStar isJsSpace)
    (mSeq (mOpt (chCls isDashSp)) (mSeq (mStar isJsSpace)
      (mSeq (litCI ("chance".toList)) mWb)))))

/-- `/post\s*[- ]?\s*foreclosure\s+sale/`. -/
def postForeclosureRe : Mch :=
  mSeq (litCI ("post".toList)) (mSeq (mStar isJsSpace)
    (mSeq (mOpt (chCls isDashSp)) (mSeq (mStar isJsSpace)
      (mSeq (litCI ("foreclosure".toList)) (mSeq (mPlus isJsSpace)
        (litCI ("sale".toList)))))))

/-- One detection rule: regex plus key, as in the source's `RULES`. -/
structure DetectRule where
  re : Mch
  k : List Char

/-- The `RULES` array of `detectCWCOTInText`. -/
def RULES : List DetectRule :=
  [⟨cwcotRe, "CWCOT".toList⟩,
   ⟨spelledOutRe, "CWCoT spelled out".toList⟩,
   ⟨titleRuleRe, "Title: CWCOT Property".toList⟩,
   ⟨secondChanceRe, "Second Chance".toList⟩,
   ⟨postForeclosureRe, "Post-Foreclosure Sale".toList⟩]

/-- Take exactly `n` digits from the front. -/
def takeDigits : Nat → List Char → Option (List Char × List Char)
  | 0, l => some ([], l)
  | _ + 1, [] => none
  | n + 1, c :: r =>
    if isDigitCh c then
      match takeDigits n r with
      | some (d, rest) => some (c :: d, rest)
      | none => none
    else none

/-- `[0-9]{lo,hi}` in greedy backtracking order (longest first). -/
def digitsRange (lo hi : Nat) (l : List Char) : List (List Char × List Char) :=
  ((List.range (hi + 1 - lo)).map (fun i => hi - i)).filterMap
    (fun k => takeDigits k l)

/-- Continue after a literal `.` (used by the revision pattern). -/
def dotThen (r : List Char) (k : List Char → Option (List Char)) :
    Option (List Char) :=
  match r with
  | c :: r2 => if c = '.' then k r2 else none
  | [] => none

theorem dotThen_cons (c : Char) (r2 : List Char)
    (k : List Char → Option (List Char)) :
    dotThen (c :: r2) k = if c = '.' then k r2 else none := rfl

/-- The capture group `([0-9]{1,2}\.[0-9]{1,2}\.[0-9]{2,4})`. -/
def revGroup (l : List Char) : Option (List Char) :=
  (digitsRange 1 2 l).findSome? (fun p1 =>
    dotThen p1.2 (fun r2 =>
      (digitsRange 1 2 r2).findSome? (fun p2 =>
        dotThen p2.2 (fun r4 =>
          (digitsRange 2 4 r4).findSome? (fun p3 =>
            some (p1.1 ++ '.' :: p2.1 ++ '.' :: p3.1))))))

/-- Attempt of `/rev\.?\s*(...)/` at the start of `l`
(the input is already lowercased, so the literal is matched directly). -/
def revAt (l : List Char) : Option (List Char) :=
  if ("rev".toList).isPrefixOf l then
    let r0 := l.drop 3
    let opts := match r0 with
      | c :: r1 => if c = '.' then [r1, r0] else [r0]
      | [] => [r0]
    opts.findSome? (fun r1 =>
      ((clsStarG isJsSpace none r1).map Prod.snd).findSome? revGroup)
  else none

/-- `t.match(/rev\.?\s*([0-9]{1,2}\.[0-9]{1,2}\.[0-9]{2,4})/)`:
leftmost match, returning group 1 (or `[]` when there is no match,
modelling the `revMatch ? revMatch[1] : ''` fallback). -/
def revScan : List Char → List Char
  | [] => []
  | l@(_ :: r) =>
    match revAt l with
    | some cap => cap
    | none => revScan r

/-- Result record of `detectCWCOTInText`. -/
structure DetectOut where
  isCWCOT : Bool
  hits : List (List Char)
  cwcot_rev : List Char
deriving DecidableEq, Repr

/-- `detectCWCOTInText` (src/main.js line 111).  `filename` is the second
argument; the empty list models a missing/empty filename (falsy). -/
def detectCWCOTInText (rawText : List Char) (filename : List Char) : DetectOut :=
  let t := lowerStr (normText rawText)
  let ruleHits := RULES.filterMap
    (fun r => if testM r.re t then some r.k else none)
  let hits := ruleHits ++
    (if !filename.isEmpty && testM (litCI ("cwcot".toList)) filename
     then ["filename:CWCOT".toList] else [])
  { isCWCOT := hits.length > 0, hits := hits, cwcot_rev := revScan t }

/- ------------------------------------------------------------------ -/
/- safe: the resilient invoker (src/main.js lines 7, 22-35)            -/
/- ------------------------------------------------------------------ -/

/-- `ERR_RE` (src/main.js line 7): alternation of transient signatures. -/
def errRe : Mch :=
  mAlt (litCI ("detached frame".toList))
    (mAlt (litCI ("frame was detached".toList))
      (mAlt (litCI ("execution context was destroyed".toList))
        (mAlt (litCI ("cannot find context".toList))
          (mAlt (litCI ("target closed".toList))
            (mAlt (litCI ("navigation failed".toList))
              (litCI ("connection closed".toList)))))))

/-- `ERR_RE.test(String(e))`. -/
def errReTest (e : List Char) : Bool := testM errRe e

/-- Decidable substring containment (JS `String.prototype.includes`). -/
def hasInfix (needle : List Char) : List Char → Bool
  | [] => needle.isEmpty
  | l@(_ :: r) => needle.isPrefixOf l || hasInfix needle r

/-- `String(e).includes('Page is closed')` (case-sensitive). -/
def pageClosedTest (e : List Char) : Bool :=
  hasInfix ("Page is closed".toList) e

/-- The behaviour of `fn` across attempts: attempt `i` either resolves with
a value or rejects with an error string. -/
abbrev AttemptScript (α : Type) := Nat → Except (List Char) α

/-- The loop of `safe` from attempt `i`.  Returns the final outcome together
with the list of back-off sleeps performed (in ms).  `Except.error none`
models the `throw last` with `last` undefined, reachable only when the
loop body never ran (`tries = 0`). -/
def safeAux (script : AttemptScript α) (tries wait : Nat) :
    Nat → Except (Option (List Char)) α × List Nat
  | i =>
    if h : i < tries then
      match script i with
      | .ok v => (.ok v, [])
      | .error e =>
        if pageClosedTest e then (.error (some e), [])
        else if !errReTest e || i = tries - 1 then (.error (some e), [])
        else
          let rec_ := safeAux script tries wait (i + 1)
          (rec_.1, wait * (i + 1) :: rec_.2)
    else (.error none, [])
  termination_by i => tries - i
  decreasing_by omega

/-- `safe(fn, tries, wait)` (src/main.js lines 22-35). -/
def safe (script : AttemptScript α) (tries wait : Nat) :
    Except (Option (List Char)) α × List Nat :=
  safeAux script tries wait 0

/- ------------------------------------------------------------------ -/
/- listDocumentTiles (src/main.js lines 360-392)                       -/
/- ------------------------------------------------------------------ -/

/-- A document tile as produced by `listDocumentTiles`. -/
structure Tile where
  label : List Char
  href : List Char
  ordinal : Nat
  dataId : List Char
deriving DecidableEq, Repr

/-- A DOM element reaching `pushTile`, in visitation order (the flattened
`for scope / for selector / forEach` iteration).  `id` is node identity
(the `seenNodes` Set key); `rawLabel` is `innerText || textContent`;
`href`/`dataId` are the attribute extractions done inside `pushTile`. -/
structure DomNode where
  id : Nat
  rawLabel : List Char
  href : List Char
  dataId : List Char
deriving DecidableEq, Repr

/-- The in-page `norm`: `(s||'').replace(/\s+/g,' ').trim()`. -/
def normLabel (s : List Char) : List Char := jsTrim (collapseWS s)

/-- Accumulator of the tile-collection pass: collected tiles, `seenNodes`,
and the `labelCounts` map. -/
structure TileAcc where
  tiles : List Tile
  seenIds : List Nat
  counts : List Char → Nat

/-- `pushTile` (src/main.js lines 370-383). -/
def pushTile (acc : TileAcc) (n : DomNode) : TileAcc :=
  if n.id ∈ acc.seenIds then acc
  else
    let acc1 : TileAcc := { acc with seenIds := n.id :: acc.seenIds }
    let label := normLabel n.rawLabel
    if label.isEmpty then acc1
    else
      let key := lowerStr label
      let ordinal := acc1.counts key
      { acc1 with
        counts := fun k => if k = key then ordinal + 1 else acc1.counts k,
        tiles := acc1.tiles ++ [⟨label, n.href, ordinal, n.dataId⟩] }

/-- The initial accumulator. -/
def emptyTileAcc : TileAcc := ⟨[], [], fun _ => 0⟩

/-- `listDocumentTiles` (src/main.js lines 360-392): the scan either fails
(`.catch(() => [])` yields the empty list) or visits a list of nodes. -/
def listDocumentTiles (scan : Except Unit (List DomNode)) : List Tile :=
  match scan with
  | .error _ => []
  | .ok visits => (visits.foldl pushTile emptyTileAcc).tiles

/- ------------------------------------------------------------------ -/
/- The artifact locator clickTileAndSniffPdf (src/main.js 395-453)     -/
/- ------------------------------------------------------------------ -/

/-- The in-page runtime capture `window.__capture`. -/
structure Capture where
  openUrl : List Char
  anchorHref : List Char
  blobUrls : List (List Char)
deriving DecidableEq, Repr

/-- Browser-observed signals available to `clickTileAndSniffPdf` after the
activation click: current page address, popup address, network sniffer
hits, CDP sniffer hits, resource-timing lookups per polling round, and the
runtime capture. -/
structure ClickEnv where
  nowUrl : List Char
  popupUrl : List Char
  pdfHits : List (List Char)
  cdpPdfUrls : List (List Char)
  perfRounds : Nat → List Char
  capture : Capture

/-- The default base URL used by the locator. -/
def auctionBase : List Char := "https://www.auction.com".toList

/-- The resource-timing polling loop of the locator (src/main.js lines
435-447): up to six rounds, first entry passing `isPdfUrl` wins. -/
def clickPerf (env : ClickEnv) : Option (List Char) :=
  (List.range 6).findSome?
    (fun i => if isPdfUrlS (env.perfRounds i) then some (env.perfRounds i)
              else none)

/-- The runtime-capture tail of the locator (src/main.js lines 448-452).
`headD []` models indexing `[0]` of a possibly empty array (`undefined`
being falsy). -/
def clickCapturePart (env : ClickEnv) : List Char :=
  let base2 := if env.nowUrl.isEmpty then auctionBase else env.nowUrl
  if isPdfUrlS env.capture.openUrl then toAbs env.capture.openUrl base2
  else if isPdfUrlS env.capture.anchorHref then toAbs env.capture.anchorHref base2
  else
    let b0 := env.capture.blobUrls.headD []
    if !b0.isEmpty && isPdfUrlS b0 then b0 else []

/-- `clickTileAndSniffPdf` (src/main.js lines 395-453): the returned
address, `[]` when nothing resolved. -/
def clickTileAndSniffPdf (env : ClickEnv) (tile : Tile) : List Char :=
  if !tile.href.isEmpty && isPdfUrlS tile.href then toAbs tile.href auctionBase
  else
    let now := env.nowUrl
    if isPdfUrlS now then now
    else if isPdfUrlS env.popupUrl then env.popupUrl
    else
      let hit0 := env.pdfHits.headD []
      if !hit0.isEmpty && isPdfUrlS hit0 then hit0
      else
        let cdp0 := env.cdpPdfUrls.headD []
        if !cdp0.isEmpty && isPdfUrlS cdp0 then cdp0
        else
          match clickPerf env with
          | some p => p
          | none => clickCapturePart env

/- ------------------------------------------------------------------ -/
/- The legacy fallback getAddendumUrl (src/main.js 1012-1027)          -/
/- ------------------------------------------------------------------ -/

/-- A panel anchor (`a[href]` inside the documents container): its visible
text and its href. -/
structure Anchor where
  text : List Char
  href : List Char
deriving DecidableEq, Repr

/-- `/(purchase\s*agreement\s*addendum|addendum\s*to\s*purchase\s*agreement)/i`. -/
def wantRe : Mch :=
  mAlt
    (mSeq (litCI ("purchase".toList)) (mSeq (mStar isJsSpace)
      (mSeq (litCI ("agreement".toList)) (mSeq (mStar isJsSpace)
        (litCI ("addendum".toList))))))
    (mSeq (litCI ("addendum".toList)) (mSeq (mStar isJsSpace)
      (mSeq (litCI ("to".toList)) (mSeq (mStar isJsSpace)
        (mSeq (litCI ("purchase".toList)) (mSeq (mStar isJsSpace)
          (litCI ("agreement".toList))))))))

/-- `/imgix\.net\/resi\/globalDocuments\/.+\.pdf/i`. -/
def imgixDotPdfRe : Mch :=
  mSeq (litCI ("imgix.net/resi/globaldocuments/".toList))
    (mSeq (mPlus isDotCh) (litCI (".pdf".toList)))

/-- The `page.url()` check on lines 1020 and 430's sibling (line 959):
`/\.pdf(\?|$)/i.test(u) || /imgix\.net\/resi\/globalDocuments\/.+\.pdf/i.test(u)`. -/
def nowPdfCheck (u : List Char) : Bool :=
  testM pdfExtRe u || testM imgixDotPdfRe u

/-- Browser-observed signals available to `getAddendumUrl`. -/
structure LegacyEnv where
  panelAnchors : List Anchor
  nowUrl : List Char
  popupUrl : List Char
  newPdfHits : List (List Char)
  perfRounds : Nat → List Char
  htmlImgixMatches : List (List Char)
  capture : Capture

/-- The resource-timing polling loop of the legacy fallback (src/main.js
line 1023): up to eight rounds, first non-empty entry wins. -/
def legacyPerf (env : LegacyEnv) : Option (List Char) :=
  (List.range 8).findSome?
    (fun i => if (env.perfRounds i).isEmpty then none
              else some (env.perfRounds i))

/-- The tail of the legacy fallback after the interactive click
(src/main.js lines 1020-1026). -/
def legacyAfterClick (env : LegacyEnv) (baseUrl : List Char) : List Char :=
  if nowPdfCheck env.nowUrl then env.nowUrl
  else if !env.popupUrl.isEmpty then env.popupUrl
  else
    let hit0 := env.newPdfHits.headD []
    if !hit0.isEmpty then toAbs hit0 baseUrl
    else
      match legacyPerf env with
      | some p => toAbs p baseUrl
      | none =>
        let m0 := env.htmlImgixMatches.headD []
        if !m0.isEmpty then m0
        else if !env.capture.openUrl.isEmpty then toAbs env.capture.openUrl baseUrl
        else if !env.capture.anchorHref.isEmpty then
          toAbs env.capture.anchorHref baseUrl
        else env.capture.blobUrls.headD []

/-- `getAddendumUrl` (src/main.js lines 1012-1027): the direct panel-anchor
scan, then the single-shot interactive attempt with its signal polling. -/
def getAddendumUrl (env : LegacyEnv) (baseUrl : List Char) : List Char :=
  match env.panelAnchors.find?
    (fun n => testM wantRe n.text && !testM prohibitedRe n.text &&
              testM pdfExtRe n.href) with
  | some el => toAbs el.href baseUrl
  | none => legacyAfterClick env baseUrl

/- ------------------------------------------------------------------ -/
/- The orchestrator getBestAddendumAndDetect (src/main.js 966-1010)    -/
/- ------------------------------------------------------------------ -/

/-- `[\s_-]` class. -/
def isSpUsDash (c : Char) : Bool := isJsSpace c || c = '_' || c = '-'

/-- `/purchase[\s_-]*agreement[\s_-]*addendum/i`. -/
def paaLoose1 : Mch :=
  mSeq (litCI ("purchase".toList)) (mSeq (mStar isSpUsDash)
    (mSeq (litCI ("agreement".toList)) (mSeq (mStar isSpUsDash)
      (litCI ("addendum".toList)))))

/-- `/addendum[\s_-]*to[\s_-]*purchase[\s_-]*agreement/i`. -/
def paaLoose2 : Mch :=
  mSeq (litCI ("addendum".toList)) (mSeq (mStar isSpUsDash)
    (mSeq (litCI ("to".toList)) (mSeq (mStar isSpUsDash)
      (mSeq (litCI ("purchase".toList)) (mSeq (mStar isSpUsDash)
        (litCI ("agreement".toList)))))))

/-- `/purchase.*agreement.*addendum/i`. -/
def paaDotRe : Mch :=
  mSeq (litCI ("purchase".toList)) (mSeq (mStar isDotCh)
    (mSeq (litCI ("agreement".toList)) (mSeq (mStar isDotCh)
      (litCI ("addendum".toList)))))

/-- `/addendum.*to.*purchase.*agreement/i`. -/
def paaDotRe2 : Mch :=
  mSeq (litCI ("addendum".toList)) (mSeq (mStar isDotCh)
    (mSeq (litCI ("to".toList)) (mSeq (mStar isDotCh)
      (mSeq (litCI ("purchase".toList)) (mSeq (mStar isDotCh)
        (litCI ("agreement".toList)))))))

/-- The `isPAA` candidate filter (src/main.js line 973). -/
def isPAATile (t : Tile) : Bool :=
  isPurchaseAgreementAddendumLabel t.label ||
  testM paaLoose1 t.label || testM paaLoose2 t.label ||
  testM paaDotRe t.href

/-- Result of `analyzeAddendumPdf` (src/main.js line 349), abstracted as an
environment-supplied valuation per address. -/
structure Det where
  isCWCOT : Bool
  cwcot_hits : List (List Char)
  cwcot_rev : List Char
  pdf_text_sample : List Char
  detection_source : List Char
  filename : List Char
deriving DecidableEq, Repr

/-- One entry of the orchestrator's `results` array:
`{ label: t.label, url: pdfUrl, ...det }`. -/
structure CandResult where
  label : List Char
  url : List Char
  det : Det
deriving DecidableEq, Repr

/-- State of the per-candidate loop (src/main.js lines 975-984) together
with an effect trace: `clicked` records every tile passed to
`clickTileAndSniffPdf` (location attempts) and `analyzed` every address
passed to `analyzeAddendumPdf` (classification attempts). -/
structure LoopTrace where
  results : List CandResult
  seen : List (List Char)
  clicked : List Tile
  analyzed : List (List Char)
deriving DecidableEq, Repr

/-- The empty loop state. -/
def emptyTrace : LoopTrace := ⟨[], [], [], []⟩

/-- The per-candidate loop (src/main.js lines 977-984).  `click` abstracts
`clickTileAndSniffPdf` (empty list = unresolved) and `analyze` abstracts
`analyzeAddendumPdf`. -/
def paaLoop (click : Tile → List Char) (analyze : List Char → Det) :
    List Tile → LoopTrace → LoopTrace
  | [], st => st
  | t :: ts, st =>
    let url := click t
    let st1 : LoopTrace := { st with clicked := st.clicked ++ [t] }
    if url.isEmpty || url ∈ st1.seen then paaLoop click analyze ts st1
    else
      paaLoop click analyze ts
        { st1 with
          seen := st1.seen ++ [url],
          analyzed := st1.analyzed ++ [url],
          results := st1.results ++ [⟨t.label, url, analyze url⟩] }

/-- The per-page outcome record (the union of the fields set at the
return sites of `getBestAddendumAndDetect` and in the caller's default). -/
structure Outcome where
  selection_reason : List Char
  url : List Char
  isCWCOT : Bool
  cwcot_hits : List (List Char)
  cwcot_rev : List Char
  detection_source : List Char
  filename : List Char
  pdf_text_sample : List Char
  label : List Char
  tiles_seen : Option Nat
  tiles_labels : Option (List (List Char))
deriving DecidableEq, Repr

/-- `{ selection_reason, ...result, tiles_seen, tiles_labels }`. -/
def outcomeOfHit (reason : List Char) (r : CandResult) (tiles : List Tile) :
    Outcome :=
  ⟨reason, r.url, r.det.isCWCOT, r.det.cwcot_hits, r.det.cwcot_rev,
   r.det.detection_source, r.det.filename, r.det.pdf_text_sample, r.label,
   some tiles.length, some (tiles.map (fun t => t.label))⟩

/-- The page-level environment of one (error-free) orchestrator attempt. -/
structure PageEnv where
  tiles : List Tile
  click : Tile → List Char
  analyze : List Char → Det
  hydrationLinks : List (List Char)
  legacyEnv : LegacyEnv
  baseUrl : List Char

/-- The all-empty `paa_not_found` outcome (src/main.js line 1007). -/
def notFoundOutcome (tiles : List Tile) : Outcome :=
  ⟨"paa_not_found".toList, [], false, [], [], [], [], [], [],
   some tiles.length, some (tiles.map (fun t => t.label))⟩

/-- The fallback chain run when no candidate produced a result
(src/main.js lines 992-1007): hydration-link scan restricted to PAA-like
URLs, then the legacy `getAddendumUrl`, then `paa_not_found`. -/
def fallbackChain (env : PageEnv) (tiles : List Tile) : Outcome :=
  match env.hydrationLinks.find?
    (fun u => testM paaDotRe u || testM paaDotRe2 u) with
  | some u =>
    outcomeOfHit ("hydration_paa".toList)
      ⟨"(hidden PAA)".toList, u, env.analyze u⟩ tiles
  | none =>
    if (getAddendumUrl env.legacyEnv env.baseUrl).isEmpty then
      notFoundOutcome tiles
    else
      outcomeOfHit ("legacy_paa".toList)
        ⟨"(legacy PAA)".toList, getAddendumUrl env.legacyEnv env.baseUrl,
         env.analyze (getAddendumUrl env.legacyEnv env.baseUrl)⟩ tiles

/-- A dummy candidate record (never selected; `results[0]` is only read
when `results` is nonempty). -/
def dummyCand : CandResult := ⟨[], [], ⟨false, [], [], [], [], []⟩⟩

/-- `getBestAddendumAndDetect` (src/main.js lines 966-1010), one successful
attempt: candidate loop, first-CWCOT selection over the collected results,
else first resolved result, else the fallback chain. -/
def getBestAddendumAndDetect (env : PageEnv) : Outcome :=
  if (paaLoop env.click env.analyze (env.tiles.filter isPAATile)
      emptyTrace).results.isEmpty then
    fallbackChain env env.tiles
  else
    match (paaLoop env.click env.analyze (env.tiles.filter isPAATile)
        emptyTrace).results.find? (fun r => r.det.isCWCOT) with
    | some hit => outcomeOfHit ("paa_cwcot_hit".toList) hit env.tiles
    | none =>
      outcomeOfHit ("paa_no_cwcot".toList)
        ((paaLoop env.click env.analyze (env.tiles.filter isPAATile)
          emptyTrace).results.headD dummyCand) env.tiles

/- ------------------------------------------------------------------ -/
/- The caller's two-phase timeout race (src/main.js lines 909-928)     -/
/- ------------------------------------------------------------------ -/

/-- `defaultDetectResult` (src/main.js line 911). -/
def defaultDetectResult : Outcome :=
  ⟨"timeout_no_paa".toList, [], false, [], [], [], [], [], [], none, none⟩

/-- When the orchestrator's promise settles relative to the two
`Promise.race` budgets. -/
inductive Phase
  | withinInitial
  | withinExtension
  | afterExtension
deriving DecidableEq, Repr

/-- The `picked` computation of the main loop (src/main.js lines 912-927):
first race, then the extended second race with
`if (!late.selection_reason) late.selection_reason = 'paa_slow'`, else the
default result.  A rejection within the first budget rejects the race and
is caught by the outer handler (`Except.error`); within the extension it is
swallowed by `.catch(() => null)` and yields the default. -/
def mainLoopPick (det : Except (List Char) Outcome) (ph : Phase) :
    Except (List Char) Outcome :=
  match ph with
  | .withinInitial => det
  | .withinExtension =>
    match det with
    | .ok o =>
      .ok (if o.selection_reason.isEmpty then
             { o with selection_reason := "paa_slow".toList }
           else o)
    | .error _ => .ok defaultDetectResult
  | .afterExtension => .ok defaultDetectResult

/- ------------------------------------------------------------------ -/
/- Generic matcher lemmas                                              -/
/- ------------------------------------------------------------------ -/

/-- The previous-character context after additionally consuming `u`. -/
def lastPc (u : List Char) (pc : Option Char) : Option Char :=
  match u.getLast? with
  | some c => some c
  | none => pc

theorem lastPc_nil (pc : Option Char) : lastPc [] pc = pc := rfl

theorem lastPc_cons (c : Char) (u : List Char) (pc : Option Char) :
    lastPc (c :: u) pc = lastPc u (some c) := by
  unfold lastPc
  cases u with
  | nil => rfl
  | cons d u2 =>
    rw [List.getLast?_cons_cons]
    cases hx : (d :: u2).getLast? with
    | none => simp at hx
    | some e => rfl

theorem mem_mSeq {a b : Mch} {st : MSt} {y : MSt} :
    y ∈ mSeq a b st ↔ ∃ x ∈ a st, y ∈ b x := by
  simp [mSeq, List.mem_flatMap]

/-- Nonemptiness helper for boolean emptiness tests. -/
theorem bnot_isEmpty_iff {xs : List MSt} : (!xs.isEmpty) = true ↔ xs ≠ [] := by
  cases xs <;> simp

theorem mSeq_ne_nil {a b : Mch} {st : MSt} :
    mSeq a b st ≠ [] ↔ ∃ x ∈ a st, b x ≠ [] := by
  constructor
  · intro h
    rcases List.exists_mem_of_ne_nil _ h with ⟨y, hy⟩
    rcases mem_mSeq.mp hy with ⟨x, hx, hyx⟩
    exact ⟨x, hx, List.ne_nil_of_mem hyx⟩
  · rintro ⟨x, hx, hb⟩
    rcases List.exists_mem_of_ne_nil _ hb with ⟨y, hy⟩
    exact List.ne_nil_of_mem (mem_mSeq.mpr ⟨x, hx, hy⟩)

theorem mAlt_ne_nil {a b : Mch} {st : MSt} :
    mAlt a b st ≠ [] ↔ (a st ≠ [] ∨ b st ≠ []) := by
  unfold mAlt
  rw [ne_eq, List.append_eq_nil]
  tauto

/-- Full characterization of a case-insensitive literal run. -/
theorem mem_litCI {w : List Char} :
    ∀ {pc : Option Char} {l : List Char} {x : MSt},
      x ∈ litCI w (pc, l) ↔
        ∃ u, l = u ++ x.2 ∧ lowerStr u = w ∧ x.1 = lastPc u pc := by
  induction w with
  | nil =>
    intro pc l x
    simp only [litCI, List.foldr_nil, mEps, List.mem_singleton]
    constructor
    · rintro rfl
      exact ⟨[], by simp [lowerStr, lastPc]⟩
    · rintro ⟨u, hl, hu, hpc⟩
      have hu0 : u = [] := by
        cases u with
        | nil => rfl
        | cons a t => simp [lowerStr] at hu
      subst hu0
      simp only [List.nil_append] at hl
      rw [lastPc_nil] at hpc
      cases x with
      | mk x1 x2 =>
        rw [Prod.mk.injEq]
        exact ⟨hpc, hl.symm⟩
  | cons c w' ih =>
    intro pc l x
    have hfold : litCI (c :: w') =
        mSeq (chCls (fun y => y.toLower = c)) (litCI w') := rfl
    rw [hfold]
    constructor
    · intro hx
      rcases mem_mSeq.mp hx with ⟨z, hz, hzb⟩
      cases l with
      | nil => simp [chCls] at hz
      | cons a l' =>
        by_cases ha : a.toLower = c
        · have hz2 : z = ((some a : Option Char), l') := by
            simpa [chCls, ha] using hz
          subst hz2
          rcases ih.mp hzb with ⟨u', hl', hu', hpc'⟩
          refine ⟨a :: u', by simp [hl'], ?_, ?_⟩
          · simp [lowerStr] at hu' ⊢
            exact ⟨ha, hu'⟩
          · rw [lastPc_cons]; exact hpc'
        · simp [chCls, ha] at hz
    · rintro ⟨u, hl, hu, hpc⟩
      cases u with
      | nil => simp [lowerStr] at hu
      | cons a u' =>
        simp only [lowerStr, List.map_cons, List.cons.injEq] at hu
        obtain ⟨ha, hu'⟩ := hu
        subst hl
        refine mem_mSeq.mpr ⟨(some a, u' ++ x.2), ?_, ?_⟩
        · simp [chCls, ha]
        · exact ih.mpr ⟨u', rfl, hu', by rw [lastPc_cons] at hpc; exact hpc⟩

/-- `re.test` succeeds iff the pattern matches at some split point. -/
theorem testAux_iff {m : Mch} :
    ∀ {l : List Char} {pc : Option Char},
      testAux m pc l = true ↔ ∃ u v, l = u ++ v ∧ m (lastPc u pc, v) ≠ [] := by
  intro l
  induction l with
  | nil =>
    intro pc
    simp only [testAux, bnot_isEmpty_iff]
    constructor
    · intro h
      exact ⟨[], [], rfl, by simpa [lastPc] using h⟩
    · rintro ⟨u, v, huv, hm⟩
      obtain ⟨rfl, rfl⟩ : u = [] ∧ v = [] := by
        cases u with
        | nil => exact ⟨rfl, by simpa using huv.symm⟩
        | cons a t => simp at huv
      simpa [lastPc] using hm
  | cons c r ih =>
    intro pc
    simp only [testAux, Bool.or_eq_true, bnot_isEmpty_iff]
    constructor
    · rintro (h | h)
      · exact ⟨[], c :: r, rfl, by simpa [lastPc] using h⟩
      · rcases ih.mp h with ⟨u, v, huv, hm⟩
        exact ⟨c :: u, v, by simp [huv], by rw [lastPc_cons]; exact hm⟩
    · rintro ⟨u, v, huv, hm⟩
      cases u with
      | nil =>
        left
        simp only [List.nil_append] at huv
        subst huv
        simpa [lastPc] using hm
      | cons a u2 =>
        right
        simp only [List.cons_append, List.cons.injEq] at huv
        obtain ⟨rfl, huv2⟩ := huv
        exact ih.mpr ⟨u2, v, huv2, by rw [lastPc_cons] at hm; exact hm⟩

/-- A matcher whose result is independent of the previous-character context. -/
def PcIrrel (m : Mch) : Prop := ∀ pc qc l, m (pc, l) = m (qc, l)

theorem pcIrrel_chCls (p : Char → Bool) : PcIrrel (chCls p) := by
  intro pc qc l; cases l <;> rfl

theorem pcIrrel_mSeq_left {a b : Mch} (h : PcIrrel a) : PcIrrel (mSeq a b) := by
  intro pc qc l; simp [mSeq, h pc qc l]

theorem pcIrrel_mAlt {a b : Mch} (ha : PcIrrel a) (hb : PcIrrel b) :
    PcIrrel (mAlt a b) := by
  intro pc qc l; simp [mAlt, ha pc qc l, hb pc qc l]

theorem pcIrrel_litCI_cons (c : Char) (w : List Char) :
    PcIrrel (litCI (c :: w)) :=
  pcIrrel_mSeq_left (pcIrrel_chCls _)

/-- For a context-independent matcher, `test` is plain split-matching. -/
theorem testM_iff {m : Mch} (hm : PcIrrel m) {l : List Char} :
    testM m l = true ↔ ∃ u v, l = u ++ v ∧ m (none, v) ≠ [] := by
  unfold testM
  rw [testAux_iff]
  constructor
  · rintro ⟨u, v, huv, h⟩
    exact ⟨u, v, huv, by rw [hm none (lastPc u none) v]; exact h⟩
  · rintro ⟨u, v, huv, h⟩
    exact ⟨u, v, huv, by rw [hm (lastPc u none) none v]; exact h⟩

/-- Matching is preserved by prepending for context-independent matchers. -/
theorem testM_append_left {m : Mch} (hm : PcIrrel m) {l : List Char}
    (a : List Char) (h : testM m l = true) : testM m (a ++ l) = true := by
  rcases (testM_iff hm).mp h with ⟨u, v, huv, hne⟩
  exact (testM_iff hm).mpr ⟨a ++ u, v, by simp [huv], hne⟩

/- ------------------------------------------------------------------ -/
/- C10: the artifact-type predicate                                    -/
/- ------------------------------------------------------------------ -/

theorem pcIrrel_pdfExtRe : PcIrrel pdfExtRe :=
  pcIrrel_mSeq_left (pcIrrel_litCI_cons _ _)

theorem pcIrrel_imgixRe : PcIrrel imgixRe := pcIrrel_litCI_cons _ _

/-- The spec-side reading of `/\.pdf(\?|$)/i`: the string contains `.pdf`
(case-insensitively) immediately followed by end-of-string or `?`. -/
def PdfExtSpec (s : List Char) : Prop :=
  ∃ u m4 v, s = u ++ m4 ++ v ∧ lowerStr m4 = ".pdf".toList ∧
    (v = [] ∨ ∃ r, v = '?' :: r)

/-- The spec-side reading of the document-host pattern: the string contains
`imgix.net/resi/globalDocuments/` case-insensitively. -/
def ImgixSpec (s : List Char) : Prop :=
  ∃ u m v, s = u ++ m ++ v ∧
    lowerStr m = "imgix.net/resi/globaldocuments/".toList

theorem testM_pdfExtRe_iff {s : List Char} :
    testM pdfExtRe s = true ↔ PdfExtSpec s := by
  rw [testM_iff pcIrrel_pdfExtRe]
  constructor
  · rintro ⟨u, v, rfl, hne⟩
    rcases mSeq_ne_nil.mp hne with ⟨x, hx, hxb⟩
    rcases mem_litCI.mp hx with ⟨m4, hv, hm4, _⟩
    rcases mAlt_ne_nil.mp hxb with h | h
    · rcases x with ⟨x1, x2⟩
      cases x2 with
      | nil => simp [chCls] at h
      | cons c r =>
        by_cases hc : c = '?'
        · subst hc
          exact ⟨u, m4, '?' :: r, by simp [hv], hm4, Or.inr ⟨r, rfl⟩⟩
        · simp [chCls, hc] at h
    · rcases x with ⟨x1, x2⟩
      cases x2 with
      | nil => exact ⟨u, m4, [], by simp [hv], hm4, Or.inl rfl⟩
      | cons c r => simp [mEnd] at h
  · rintro ⟨u, m4, v, rfl, hm4, hv⟩
    refine ⟨u, m4 ++ v, by simp, ?_⟩
    refine mSeq_ne_nil.mpr ⟨(lastPc m4 none, v), mem_litCI.mpr ⟨m4, rfl, hm4, rfl⟩, ?_⟩
    rcases hv with rfl | ⟨r, rfl⟩
    · exact mAlt_ne_nil.mpr (Or.inr (by simp [mEnd]))
    · exact mAlt_ne_nil.mpr (Or.inl (by simp [chCls]))

theorem testM_imgixRe_iff {s : List Char} :
    testM imgixRe s = true ↔ ImgixSpec s := by
  rw [testM_iff pcIrrel_imgixRe]
  constructor
  · rintro ⟨u, v, rfl, hne⟩
    rcases List.exists_mem_of_ne_nil _ hne with ⟨x, hx⟩
    rcases mem_litCI.mp hx with ⟨m, hv, hm, _⟩
    exact ⟨u, m, x.2, by simp [hv], hm⟩
  · rintro ⟨u, m, v, rfl, hm⟩
    refine ⟨u, m ++ v, by simp, ?_⟩
    have hmem : ((lastPc m none, v) : MSt) ∈
        litCI ("imgix.net/resi/globaldocuments/".toList) (none, m ++ v) :=
      mem_litCI.mpr ⟨m, rfl, hm, rfl⟩
    exact List.ne_nil_of_mem hmem

/-- C10.  The artifact-type predicate `isPdfUrl` is total by construction
(every input yields a `Bool`; the source's `try/catch` plus `String()`
conversion cannot throw), returns `false` on a nullish argument, and on a
string argument returns `true` exactly when the string contains `.pdf`
immediately followed by end-of-string or `?` (case-insensitively), or
contains the `imgix.net/resi/globalDocuments/` document-host signature
(case-insensitively). -/
theorem c10_isPdfUrl_total_iff :
    isPdfUrl none = false ∧
    ∀ s : List Char, isPdfUrl (some s) = true ↔ (PdfExtSpec s ∨ ImgixSpec s) := by
  refine ⟨rfl, fun s => ?_⟩
  show isPdfUrlS s = true ↔ _
  unfold isPdfUrlS
  by_cases hs : s.isEmpty
  · rw [List.isEmpty_iff] at hs
    subst hs
    simp only [List.isEmpty_nil, if_true]
    constructor
    · intro h; cases h
    · rintro (⟨u, m4, v, h, hm4, _⟩ | ⟨u, m, v, h, hm⟩)
      · have := congrArg List.length h
        have hm4l := congrArg List.length hm4
        simp [lowerStr] at this hm4l
        omega
      · have := congrArg List.length h
        have hml := congrArg List.length hm
        simp [lowerStr] at this hml
        omega
  · simp only [hs, Bool.false_eq_true, if_false]
    by_cases h1 : testM pdfExtRe s
    · simp only [h1, if_true, true_iff]
      exact Or.inl (testM_pdfExtRe_iff.mp h1)
    · simp only [h1, Bool.false_eq_true, if_false]
      by_cases h2 : testM imgixRe s
      · simp only [h2, if_true, true_iff]
        exact Or.inr (testM_imgixRe_iff.mp h2)
      · simp only [h2, Bool.false_eq_true, if_false, false_iff]
        rintro (hspec | hspec)
        · exact h1 (testM_pdfExtRe_iff.mpr hspec)
        · exact h2 (testM_imgixRe_iff.mpr hspec)

/- ------------------------------------------------------------------ -/
/- C8: the resilient invoker                                           -/
/- ------------------------------------------------------------------ -/

/-- Attempt `j` of the script fails with an error that `safe` retries:
a transient signature match on a page not explicitly reported closed. -/
def RetriedErr (script : AttemptScript α) (j : Nat) : Prop :=
  ∃ e, script j = .error e ∧ pageClosedTest e = false ∧ errReTest e = true

theorem safeAux_step_ok {α : Type} {script : AttemptScript α}
    {tries wait i : Nat} {v : α} (h : i < tries) (hok : script i = .ok v) :
    safeAux script tries wait i = (.ok v, []) := by
  unfold safeAux
  rw [dif_pos h, hok]

theorem safeAux_step_err {α : Type} {script : AttemptScript α}
    {tries wait i : Nat} {e : List Char} (h : i < tries)
    (he : script i = .error e) :
    safeAux script tries wait i =
      (if pageClosedTest e then
         ((.error (some e) : Except (Option (List Char)) α), [])
       else if !errReTest e || decide (i = tries - 1) then
         (.error (some e), [])
       else ((safeAux script tries wait (i + 1)).1,
             wait * (i + 1) :: (safeAux script tries wait (i + 1)).2)) := by
  conv_lhs => unfold safeAux
  rw [dif_pos h, he]

theorem safeAux_ok {α : Type} (script : AttemptScript α) (tries wait : Nat)
    (v : α) :
    ∀ (k i : Nat), i + k < tries →
      (∀ j, i ≤ j → j < i + k → RetriedErr script j) →
      script (i + k) = .ok v →
      safeAux script tries wait i =
        (.ok v, (List.range k).map (fun d => wait * (i + d + 1))) := by
  intro k
  induction k with
  | zero =>
    intro i hlt _ hok
    simp only [Nat.add_zero] at hok
    rw [safeAux_step_ok (by omega) hok]
    simp
  | succ k ih =>
    intro i hlt herrs hok
    rcases herrs i (Nat.le_refl i) (by omega) with ⟨e, he, hpc, her⟩
    rw [safeAux_step_err (by omega) he]
    rw [if_neg (by simp [hpc])]
    rw [if_neg (by simp [her]; omega)]
    have hrec := ih (i + 1) (by omega)
      (fun j hj1 hj2 => herrs j (by omega) (by omega))
      (by rw [show i + 1 + k = i + (k + 1) by omega]; exact hok)
    rw [hrec]
    simp only [List.range_succ_eq_map, List.map_cons, List.map_map]
    refine congrArg _ ?_
    refine congrArg _ ?_
    refine List.map_congr_left ?_
    intro d _
    simp only [Function.comp]
    refine congrArg _ ?_
    omega

theorem safeAux_err {α : Type} (script : AttemptScript α) (tries wait : Nat)
    (e : List Char) :
    ∀ (k i : Nat), i + k < tries →
      (∀ j, i ≤ j → j < i + k → RetriedErr script j) →
      script (i + k) = .error e →
      (pageClosedTest e = true ∨ errReTest e = false ∨ i + k = tries - 1) →
      safeAux script tries wait i =
        (.error (some e), (List.range k).map (fun d => wait * (i + d + 1))) := by
  intro k
  induction k with
  | zero =>
    intro i hlt _ herr hstop
    simp only [Nat.add_zero] at herr hstop
    rw [safeAux_step_err (by omega) herr]
    rcases hstop with h | h | h
    · rw [if_pos h]; simp
    · by_cases hpc : pageClosedTest e
      · rw [if_pos hpc]; simp
      · rw [if_neg hpc, if_pos (by simp [h])]; simp
    · by_cases hpc : pageClosedTest e
      · rw [if_pos hpc]; simp
      · rw [if_neg hpc, if_pos (by simp [h])]; simp
  | succ k ih =>
    intro i hlt herrs herr hstop
    rcases herrs i (Nat.le_refl i) (by omega) with ⟨e0, he0, hpc0, her0⟩
    rw [safeAux_step_err (by omega) he0]
    rw [if_neg (by simp [hpc0])]
    rw [if_neg (by simp [her0]; omega)]
    have hrec := ih (i + 1) (by omega)
      (fun j hj1 hj2 => herrs j (by omega) (by omega))
      (by rw [show i + 1 + k = i + (k + 1) by omega]; exact herr)
      (by rw [show i + 1 + k = i + (k + 1) by omega]; exact hstop)
    rw [hrec]
    simp only [List.range_succ_eq_map, List.map_cons, List.map_map]
    refine congrArg _ ?_
    refine congrArg _ ?_
    refine List.map_congr_left ?_
    intro d _
    simp only [Function.comp]
    refine congrArg _ ?_
    omega

/-- C8.  The resilient invoker `safe` retries only errors carrying one of
the fixed transient signatures (`ERR_RE`) on a page not explicitly reported
closed, sleeping `wait * attemptNumber` between attempts (linear backoff,
`(List.range k).map (fun d => wait * (d + 1))` after `k` retried attempts;
the source defaults are `tries = 5`, `wait = 450`).  Any page-closed error,
any error not matching a transient signature, and the error of the final
attempt (exhaustion) propagate to the caller. -/
theorem c8_safe_retry_policy {α : Type} (script : AttemptScript α)
    (tries wait : Nat) :
    (∀ (k : Nat) (v : α), k < tries →
      (∀ j, j < k → RetriedErr script j) → script k = .ok v →
      safe script tries wait =
        (.ok v, (List.range k).map (fun d => wait * (d + 1)))) ∧
    (∀ (k : Nat) (e : List Char), k < tries →
      (∀ j, j < k → RetriedErr script j) → script k = .error e →
      (pageClosedTest e = true ∨ errReTest e = false ∨ k = tries - 1) →
      safe script tries wait =
        (.error (some e), (List.range k).map (fun d => wait * (d + 1)))) := by
  constructor
  · intro k v hk herrs hok
    have := safeAux_ok script tries wait v k 0 (by omega)
      (fun j hj1 hj2 => herrs j (by omega)) (by simpa using hok)
    simpa using this
  · intro k e hk herrs herr hstop
    have := safeAux_err script tries wait e k 0 (by omega)
      (fun j hj1 hj2 => herrs j (by omega)) (by simpa using herr)
      (by simpa using hstop)
    simpa using this

/-- A concrete script used by the C8 witness: two transient failures, then
success. -/
def c8Script : AttemptScript Nat := fun i =>
  if i < 2 then .error ("Execution context was destroyed".toList) else .ok 42

/-- Witness for C8 at the source defaults `tries = 5`, `wait = 450`:
two transient failures then a success give `ok 42` after linear sleeps
450 ms and 900 ms; and a page-closed error propagates at once. -/
theorem c8_safe_retry_policy_witness :
    safe c8Script 5 450 = (.ok 42, [450, 900]) ∧
    safe (fun _ => (.error ("Page is closed".toList) : Except (List Char) Nat))
      5 450 = (.error (some ("Page is closed".toList)), []) := by
  constructor
  · have h := (c8_safe_retry_policy c8Script 5 450).1 2 42 (by omega)
      (fun j hj => ⟨"Execution context was destroyed".toList, by
          unfold c8Script
          rw [if_pos hj], by decide, by decide⟩) rfl
    simpa using h
  · have h := (c8_safe_retry_policy
        (fun _ => (.error ("Page is closed".toList) : Except (List Char) Nat))
        5 450).2 0 ("Page is closed".toList) (by omega)
      (fun j hj => absurd hj (by omega)) rfl (Or.inl (by decide))
    simpa using h

/- ------------------------------------------------------------------ -/
/- C9: tile discovery                                                  -/
/- ------------------------------------------------------------------ -/

/-- The ordinal bookkeeping invariant: for every label key, the ordinals of
the collected tiles carrying that key are `0, 1, ...` in order of
appearance, and the label counter equals their number. -/
def OrdInv (acc : TileAcc) : Prop :=
  ∀ k, ((acc.tiles.filter (fun t => lowerStr t.label = k)).map
          (fun t => t.ordinal)) = List.range (acc.counts k)

theorem ordInv_empty : OrdInv emptyTileAcc := by
  intro k
  simp [emptyTileAcc]

theorem ordInv_push {acc : TileAcc} (h : OrdInv acc) (n : DomNode) :
    OrdInv (pushTile acc n) := by
  unfold pushTile
  by_cases hseen : n.id ∈ acc.seenIds
  · rw [if_pos hseen]; exact h
  · rw [if_neg hseen]
    by_cases hlab : (normLabel n.rawLabel).isEmpty
    · rw [if_pos hlab]; exact h
    · rw [if_neg hlab]
      intro k
      simp only [List.filter_append, List.map_append]
      by_cases hk : k = lowerStr (normLabel n.rawLabel)
      · subst hk
        rw [if_pos (by simp)]
        simp only [List.filter_cons, List.filter_nil]
        rw [if_pos (by simp)]
        simp only [List.map_cons, List.map_nil]
        rw [h _, List.range_succ]
      · rw [if_neg hk]
        simp only [List.filter_cons, List.filter_nil]
        rw [if_neg (by
          simp only [decide_eq_true_eq]
          exact fun hc => hk hc.symm)]
        simp only [List.map_nil, List.append_nil]
        exact h k

theorem ordInv_foldl (visits : List DomNode) :
    ∀ (acc : TileAcc), OrdInv acc → OrdInv (visits.foldl pushTile acc) := by
  induction visits with
  | nil => intro acc h; exact h
  | cons v vs ih =>
    intro acc h
    exact ih (pushTile acc v) (ordInv_push h v)

/-- Node-identity deduplication relative to a set of already-seen ids. -/
def dedupNodes (seen : List Nat) : List DomNode → List DomNode
  | [] => []
  | v :: vs =>
    if v.id ∈ seen then dedupNodes seen vs
    else v :: dedupNodes (v.id :: seen) vs

theorem foldl_pushTile_dedup (visits : List DomNode) :
    ∀ (acc : TileAcc),
      visits.foldl pushTile acc =
        (dedupNodes acc.seenIds visits).foldl pushTile acc := by
  induction visits with
  | nil => intro acc; rfl
  | cons v vs ih =>
    intro acc
    simp only [List.foldl_cons, dedupNodes]
    by_cases hseen : v.id ∈ acc.seenIds
    · rw [if_pos hseen]
      have hstay : pushTile acc v = acc := by
        unfold pushTile
        rw [if_pos hseen]
      rw [hstay]
      exact ih acc
    · rw [if_neg hseen]
      simp only [List.foldl_cons]
      have hseen2 : (pushTile acc v).seenIds = v.id :: acc.seenIds := by
        unfold pushTile
        rw [if_neg hseen]
        by_cases hlab : (normLabel v.rawLabel).isEmpty
        · rw [if_pos hlab]
        · rw [if_neg hlab]
      rw [ih (pushTile acc v), hseen2]

/-- C9.  Tile discovery deduplicates by identity node, not by label:
(1) for every visitation sequence and every label key, the ordinals of the
tiles carrying that key are exactly `0, 1, ...` in order of appearance;
(2) node-duplicate visits contribute nothing (each node yields at most one
tile), so the result equals the result on the id-deduplicated sequence;
(3) two distinct nodes (ids 1 ≠ 2) with the same visible text yield two
tiles with the same label and ordinals 0 and 1; and
(4) a failing scan and a page with no qualifying elements both yield the
empty tile list rather than an error. -/
theorem c9_tile_discovery :
    (∀ (visits : List DomNode) (k : List Char),
      ((listDocumentTiles (.ok visits)).filter
          (fun t => lowerStr t.label = k)).map (fun t => t.ordinal) =
        List.range (((listDocumentTiles (.ok visits)).filter
          (fun t => lowerStr t.label = k)).length)) ∧
    (∀ visits : List DomNode,
      listDocumentTiles (.ok visits) =
        listDocumentTiles (.ok (dedupNodes [] visits))) ∧
    (listDocumentTiles (.ok
        [⟨1, "Doc A".toList, "/a.pdf".toList, []⟩,
         ⟨2, "Doc A".toList, "/b.pdf".toList, []⟩]) =
      [⟨"Doc A".toList, "/a.pdf".toList, 0, []⟩,
       ⟨"Doc A".toList, "/b.pdf".toList, 1, []⟩]) ∧
    listDocumentTiles (.error ()) = [] ∧
    listDocumentTiles (.ok []) = [] := by
  refine ⟨?_, ?_, by decide, rfl, rfl⟩
  · intro visits k
    have hinv := ordInv_foldl visits emptyTileAcc ordInv_empty k
    have hlen := congrArg List.length hinv
    simp only [List.length_map, List.length_range] at hlen
    have hld : listDocumentTiles (.ok visits) =
        (visits.foldl pushTile emptyTileAcc).tiles := rfl
    rw [hld, hinv, hlen]
  · intro visits
    show (visits.foldl pushTile emptyTileAcc).tiles = _
    rw [foldl_pushTile_dedup visits emptyTileAcc]
    rfl

/- ------------------------------------------------------------------ -/
/- C2: the per-page candidate loop                                     -/
/- ------------------------------------------------------------------ -/

/-- Every candidate tile is passed to the locator: the loop never
short-circuits. -/
theorem paaLoop_clicked (click : Tile → List Char) (analyze : List Char → Det) :
    ∀ (ts : List Tile) (st : LoopTrace),
      (paaLoop click analyze ts st).clicked = st.clicked ++ ts := by
  intro ts
  induction ts with
  | nil => intro st; simp [paaLoop]
  | cons t ts ih =>
    intro st
    unfold paaLoop
    by_cases hc : (click t).isEmpty || click t ∈ st.seen
    · rw [if_pos hc, ih]
      simp
    · rw [if_neg hc, ih]
      simp

/-- `find?` returns the first list element satisfying the predicate. -/
theorem find?_first {α : Type} (p : α → Bool) :
    ∀ (l : List α), (∃ x ∈ l, p x = true) →
      ∃ pre hit post, l = pre ++ hit :: post ∧ p hit = true ∧
        (∀ r ∈ pre, p r = false) ∧ l.find? p = some hit := by
  intro l
  induction l with
  | nil => rintro ⟨x, hx, _⟩; cases hx
  | cons a l ih =>
    rintro ⟨x, hx, hpx⟩
    by_cases hpa : p a
    · exact ⟨[], a, l, rfl, hpa, by simp, by simp [List.find?_cons_of_pos _ hpa]⟩
    · have hxl : x ∈ l := by
        rcases List.mem_cons.mp hx with rfl | h
        · exact absurd hpx hpa
        · exact h
      rcases ih ⟨x, hxl, hpx⟩ with ⟨pre, hit, post, heq, hph, hpre, hfind⟩
      refine ⟨a :: pre, hit, post, by simp [heq], hph, ?_, ?_⟩
      · intro r hr
        rcases List.mem_cons.mp hr with rfl | h
        · simpa using hpa
        · exact hpre r h
      · rw [List.find?_cons_of_neg _ hpa, hfind]

/-- Concrete environment for C2: two resolvable candidates, the first of
which classifies as a CWCOT match. -/
def c2Url1 : List Char := "https://cdn.imgix.net/resi/globalDocuments/a1.pdf".toList

/-- Second candidate address for C2. -/
def c2Url2 : List Char := "https://cdn.imgix.net/resi/globalDocuments/a2.pdf".toList

/-- First candidate tile for C2. -/
def c2Tile1 : Tile := ⟨"Purchase Agreement Addendum".toList, [], 0, []⟩

/-- Second candidate tile for C2. -/
def c2Tile2 : Tile := ⟨"Purchase Agreement Addendum".toList, [], 1, []⟩

/-- C2 locator: both tiles resolve. -/
def c2Click (t : Tile) : List Char := if t.ordinal = 0 then c2Url1 else c2Url2

/-- C2 classifier: the first address is a confirmed match, the second not. -/
def c2Analyze (u : List Char) : Det :=
  if u = c2Url1 then ⟨true, ["CWCOT".toList], [], [], "pdfjs".toList, "a1.pdf".toList⟩
  else ⟨false, [], [], [], "pdfjs".toList, "a2.pdf".toList⟩

/-- A legacy environment with no signals at all. -/
def emptyLegacyEnv : LegacyEnv := ⟨[], [], [], [], fun _ => [], [], ⟨[], [], []⟩⟩

/-- The C2 page environment. -/
def c2Env : PageEnv :=
  ⟨[c2Tile1, c2Tile2], c2Click, c2Analyze, [], emptyLegacyEnv, auctionBase⟩

/-- Counterexample to C2 as stated.  On a page with two TargetAddendum
candidates whose first resolves to a confirmed match, the orchestrator does
return the first match's result under the confirmed-match reason
(`paa_cwcot_hit`), but the loop does NOT short-circuit: the second
candidate is still located (clicked) and its retrieved content still
classified, contradicting "no candidate after it is located or
classified". -/
theorem c2_counterexample :
    (getBestAddendumAndDetect c2Env).selection_reason = "paa_cwcot_hit".toList ∧
    (getBestAddendumAndDetect c2Env).url = c2Url1 ∧
    (paaLoop c2Click c2Analyze [c2Tile1, c2Tile2] emptyTrace).clicked =
      [c2Tile1, c2Tile2] ∧
    (paaLoop c2Click c2Analyze [c2Tile1, c2Tile2] emptyTrace).analyzed =
      [c2Url1, c2Url2] ∧
    c2Url2 ≠ c2Url1 := by
  refine ⟨by decide, by decide, by decide, by decide, by decide⟩

/-- C2 as amended.  The candidate loop processes every TargetAddendum
candidate (each one is located, and each newly resolved address is
classified); after the loop, if any collected result classifies as a match,
the orchestrator returns reason `paa_cwcot_hit` with the first matching
result in discovery order — candidates after the first match are still
located and classified, there is no short-circuit. -/
theorem c2_first_match_selection (env : PageEnv) :
    (∀ (ts : List Tile) (st : LoopTrace),
      (paaLoop env.click env.analyze ts st).clicked = st.clicked ++ ts) ∧
    (∀ hit0,
      hit0 ∈ (paaLoop env.click env.analyze (env.tiles.filter isPAATile)
        emptyTrace).results →
      hit0.det.isCWCOT = true →
      ∃ pre hit post,
        (paaLoop env.click env.analyze (env.tiles.filter isPAATile)
          emptyTrace).results = pre ++ hit :: post ∧
        hit.det.isCWCOT = true ∧
        (∀ r ∈ pre, r.det.isCWCOT = false) ∧
        getBestAddendumAndDetect env =
          outcomeOfHit ("paa_cwcot_hit".toList) hit env.tiles) := by
  constructor
  · exact paaLoop_clicked env.click env.analyze
  · intro hit0 hmem hcw
    rcases find?_first (fun r => r.det.isCWCOT)
      (paaLoop env.click env.analyze (env.tiles.filter isPAATile)
        emptyTrace).results ⟨hit0, hmem, hcw⟩ with
      ⟨pre, hit, post, heq, hph, hpre, hfind⟩
    refine ⟨pre, hit, post, heq, hph, hpre, ?_⟩
    unfold getBestAddendumAndDetect
    rw [if_neg (by rw [List.isEmpty_iff, heq]; simp)]
    rw [hfind]

/-- Witness for C2's amended theorem at the concrete C2 environment. -/
theorem c2_first_match_selection_witness :
    ∃ pre hit post,
      (paaLoop c2Env.click c2Env.analyze (c2Env.tiles.filter isPAATile)
        emptyTrace).results = pre ++ hit :: post ∧
      hit.det.isCWCOT = true ∧
      (∀ r ∈ pre, r.det.isCWCOT = false) ∧
      getBestAddendumAndDetect c2Env =
        outcomeOfHit ("paa_cwcot_hit".toList) hit c2Env.tiles := by
  refine (c2_first_match_selection c2Env).2
    ⟨c2Tile1.label, c2Url1, c2Analyze c2Url1⟩ ?_ (by decide)
  show _ ∈ (paaLoop c2Click c2Analyze ([c2Tile1, c2Tile2].filter isPAATile)
    emptyTrace).results
  decide

/- ------------------------------------------------------------------ -/
/- C3: the resolved-artifact invariant                                 -/
/- ------------------------------------------------------------------ -/

/-- Boolean normal form of `isPdfUrlS`. -/
theorem isPdfUrlS_eq (s : List Char) :
    isPdfUrlS s = (!s.isEmpty && (testM pdfExtRe s || testM imgixRe s)) := by
  unfold isPdfUrlS
  by_cases h0 : s.isEmpty <;> by_cases h1 : testM pdfExtRe s <;>
    by_cases h2 : testM imgixRe s <;> simp [h0, h1, h2]

/-- The artifact-type check is stable under prepending (the patterns are
unanchored on the left). -/
theorem isPdfUrlS_append_left (a u : List Char) (h : isPdfUrlS u = true) :
    isPdfUrlS (a ++ u) = true := by
  rw [isPdfUrlS_eq] at h ⊢
  simp only [Bool.and_eq_true, Bool.or_eq_true, Bool.not_eq_true'] at h ⊢
  obtain ⟨h0, h1⟩ := h
  refine ⟨?_, ?_⟩
  · have : u ≠ [] := by simpa [List.isEmpty_iff] using h0
    simp [List.isEmpty_iff, this]
  · rcases h1 with h1 | h1
    · exact Or.inl (testM_append_left pcIrrel_pdfExtRe a h1)
    · exact Or.inr (testM_append_left pcIrrel_imgixRe a h1)

/-- A successful run of a literal-headed sequence determines a
case-folded prefix of the input. -/
theorem mSeq_litCI_prefix {w : List Char} {k : Mch} {pc : Option Char}
    {l : List Char} (h : mSeq (litCI w) k (pc, l) ≠ []) :
    ∃ u v, l = u ++ v ∧ lowerStr u = w := by
  rcases mSeq_ne_nil.mp h with ⟨x, hx, _⟩
  rcases mem_litCI.mp hx with ⟨u, hl, hu, _⟩
  exact ⟨u, x.2, hl, hu⟩

/-- A successful run of a plain literal determines a case-folded prefix. -/
theorem litCI_prefix {w : List Char} {pc : Option Char} {l : List Char}
    (h : litCI w (pc, l) ≠ []) :
    ∃ u v, l = u ++ v ∧ lowerStr u = w := by
  rcases List.exists_mem_of_ne_nil _ h with ⟨x, hx⟩
  rcases mem_litCI.mp hx with ⟨u, hl, hu, _⟩
  exact ⟨u, x.2, hl, hu⟩

/-- `pdfExtRe` can only match at a position whose first character folds to
`.` . -/
theorem pdfExtRe_head {pc : Option Char} {l : List Char}
    (h : pdfExtRe (pc, l) ≠ []) :
    ∃ d r, l = d :: r ∧ d.toLower = '.' ∧
      ∃ d2 r2, r = d2 :: r2 ∧ d2.toLower = 'p' := by
  rcases mSeq_litCI_prefix h with ⟨u, v, hl, hu⟩
  have hu2 : u.map Char.toLower = ['.', 'p', 'd', 'f'] := by
    have he : (".pdf".toList : List Char) = ['.', 'p', 'd', 'f'] := by decide
    rw [← he]
    exact hu
  rcases u with _ | ⟨a, _ | ⟨b, u2⟩⟩
  · simp at hu2
  · simp at hu2
  · simp only [List.map_cons, List.cons.injEq] at hu2
    obtain ⟨ha, hb, -⟩ := hu2
    exact ⟨a, b :: (u2 ++ v), by simpa using hl, ha, b, u2 ++ v, rfl, hb⟩

/-- `imgixRe` can only match at a position whose first character folds to
`i`. -/
theorem imgixRe_head {pc : Option Char} {l : List Char}
    (h : imgixRe (pc, l) ≠ []) :
    ∃ d r, l = d :: r ∧ d.toLower = 'i' := by
  rcases litCI_prefix h with ⟨u, v, hl, hu⟩
  rcases u with _ | ⟨a, u'⟩
  · simp [lowerStr] at hu
  · refine ⟨a, u' ++ v, by simp [hl], ?_⟩
    have := congrArg (fun t => t.headD ' ') hu
    simpa [lowerStr] using this

/-- Peeling one leading character that can start no match preserves
the artifact-type check. -/
theorem isPdfUrlS_cons_elim {c : Char} {r : List Char}
    (hc1 : ¬ c.toLower = '.') (hc2 : ¬ c.toLower = 'i')
    (h : isPdfUrlS (c :: r) = true) : isPdfUrlS r = true := by
  rw [isPdfUrlS_eq] at h
  simp only [Bool.and_eq_true, Bool.or_eq_true] at h
  obtain ⟨-, h1⟩ := h
  have hstep : testM pdfExtRe r = true ∨ testM imgixRe r = true := by
    rcases h1 with h1 | h1
    · left
      rcases (testM_iff pcIrrel_pdfExtRe).mp h1 with ⟨u, v, huv, hne⟩
      cases u with
      | nil =>
        exfalso
        simp only [List.nil_append] at huv
        rcases pdfExtRe_head hne with ⟨d, r2, hdr, hd, -⟩
        rw [← huv] at hdr
        cases hdr
        exact hc1 hd
      | cons a u2 =>
        simp only [List.cons_append, List.cons.injEq] at huv
        exact (testM_iff pcIrrel_pdfExtRe).mpr ⟨u2, v, huv.2, hne⟩
    · right
      rcases (testM_iff pcIrrel_imgixRe).mp h1 with ⟨u, v, huv, hne⟩
      cases u with
      | nil =>
        exfalso
        simp only [List.nil_append] at huv
        rcases imgixRe_head hne with ⟨d, r2, hdr, hd⟩
        rw [← huv] at hdr
        cases hdr
        exact hc2 hd
      | cons a u2 =>
        simp only [List.cons_append, List.cons.injEq] at huv
        exact (testM_iff pcIrrel_imgixRe).mpr ⟨u2, v, huv.2, hne⟩
  have hne2 : r ≠ [] := by
    rcases hstep with h1 | h1
    · rcases (testM_iff pcIrrel_pdfExtRe).mp h1 with ⟨u, v, huv, hne⟩
      rcases pdfExtRe_head hne with ⟨d, r2, hdr, -, -⟩
      intro hr
      rw [hr] at huv
      obtain ⟨rfl, rfl⟩ : u = [] ∧ v = [] := by
        cases u with
        | nil => exact ⟨rfl, by simpa using huv.symm⟩
        | cons x t => simp at huv
      cases hdr
    · rcases (testM_iff pcIrrel_imgixRe).mp h1 with ⟨u, v, huv, hne⟩
      rcases imgixRe_head hne with ⟨d, r2, hdr, -⟩
      intro hr
      rw [hr] at huv
      obtain ⟨rfl, rfl⟩ : u = [] ∧ v = [] := by
        cases u with
        | nil => exact ⟨rfl, by simpa using huv.symm⟩
        | cons x t => simp at huv
      cases hdr
  rw [isPdfUrlS_eq]
  simp only [Bool.and_eq_true, Bool.or_eq_true]
  exact ⟨by simp [List.isEmpty_iff, hne2], hstep⟩

/-- Peeling a leading `./` (which can start no match: a `pdfExtRe` match
needs `p` as its second character and an `imgixRe` match needs `i` first)
preserves the artifact-type check. -/
theorem isPdfUrlS_dotSlash_elim {r : List Char}
    (h : isPdfUrlS ('.' :: '/' :: r) = true) : isPdfUrlS r = true := by
  rw [isPdfUrlS_eq] at h
  simp only [Bool.and_eq_true, Bool.or_eq_true] at h
  obtain ⟨-, h1⟩ := h
  have hstep : testM pdfExtRe r = true ∨ testM imgixRe r = true := by
    rcases h1 with h1 | h1
    · left
      rcases (testM_iff pcIrrel_pdfExtRe).mp h1 with ⟨u, v, huv, hne⟩
      rcases pdfExtRe_head hne with ⟨d, r2, hv, hd, d2, r22, hr2, hd2⟩
      rcases u with _ | ⟨x, _ | ⟨y, u2⟩⟩
      · exfalso
        simp only [List.nil_append] at huv
        rw [hv, hr2] at huv
        simp only [List.cons.injEq] at huv
        rw [← huv.2.1] at hd2
        revert hd2
        decide
      · exfalso
        simp only [List.cons_append, List.nil_append, List.cons.injEq] at huv
        rw [hv] at huv
        simp only [List.cons.injEq] at huv
        rw [← huv.2.1] at hd
        revert hd
        decide
      · simp only [List.cons_append, List.cons.injEq] at huv
        exact (testM_iff pcIrrel_pdfExtRe).mpr ⟨u2, v, huv.2.2, hne⟩
    · right
      rcases (testM_iff pcIrrel_imgixRe).mp h1 with ⟨u, v, huv, hne⟩
      rcases imgixRe_head hne with ⟨d, r2, hv, hd⟩
      rcases u with _ | ⟨x, _ | ⟨y, u2⟩⟩
      · exfalso
        simp only [List.nil_append] at huv
        rw [hv] at huv
        simp only [List.cons.injEq] at huv
        rw [← huv.1] at hd
        revert hd
        decide
      · exfalso
        simp only [List.cons_append, List.nil_append, List.cons.injEq] at huv
        rw [hv] at huv
        simp only [List.cons.injEq] at huv
        rw [← huv.2.1] at hd
        revert hd
        decide
      · simp only [List.cons_append, List.cons.injEq] at huv
        exact (testM_iff pcIrrel_imgixRe).mpr ⟨u2, v, huv.2.2, hne⟩
  have hne2 : r ≠ [] := by
    rcases hstep with h1 | h1
    · rcases (testM_iff pcIrrel_pdfExtRe).mp h1 with ⟨u, v, huv, hne⟩
      rcases pdfExtRe_head hne with ⟨d, r2, hdr, -, -⟩
      intro hr
      rw [hr] at huv
      obtain ⟨rfl, rfl⟩ : u = [] ∧ v = [] := by
        cases u with
        | nil => exact ⟨rfl, by simpa using huv.symm⟩
        | cons x t => simp at huv
      cases hdr
    · rcases (testM_iff pcIrrel_imgixRe).mp h1 with ⟨u, v, huv, hne⟩
      rcases imgixRe_head hne with ⟨d, r2, hdr, -⟩
      intro hr
      rw [hr] at huv
      obtain ⟨rfl, rfl⟩ : u = [] ∧ v = [] := by
        cases u with
        | nil => exact ⟨rfl, by simpa using huv.symm⟩
        | cons x t => simp at huv
      cases hdr
  rw [isPdfUrlS_eq]
  simp only [Bool.and_eq_true, Bool.or_eq_true]
  exact ⟨by simp [List.isEmpty_iff, hne2], hstep⟩

/-- Stripping the `^\.?\/` prefix preserves the artifact-type check. -/
theorem isPdfUrlS_stripDotSlash (u : List Char) (h : isPdfUrlS u = true) :
    isPdfUrlS (stripDotSlash u) = true := by
  unfold stripDotSlash
  split
  · exact isPdfUrlS_dotSlash_elim h
  · exact isPdfUrlS_cons_elim (by decide) (by decide) h
  · exact h

/-- `toAbs` preserves the artifact-type check. -/
theorem isPdfUrlS_toAbs (u base : List Char) (h : isPdfUrlS u = true) :
    isPdfUrlS (toAbs u base) = true := by
  unfold toAbs
  have hne : ¬ u.isEmpty = true := by
    rw [isPdfUrlS_eq] at h
    simp only [Bool.and_eq_true, Bool.not_eq_true'] at h
    simp [h.1]
  rw [if_neg hne]
  by_cases h1 : startsHttp u
  · rw [if_pos h1]; exact h
  · rw [if_neg h1]
    by_cases h2 : ("//".toList.isPrefixOf u) = true
    · rw [if_pos h2]
      exact isPdfUrlS_append_left _ _ h
    · rw [if_neg h2]
      by_cases h3 : ("/".toList.isPrefixOf u) = true
      · rw [if_pos h3]
        exact isPdfUrlS_append_left _ _ h
      · rw [if_neg h3]
        have hstrip := isPdfUrlS_stripDotSlash u h
        have : stripTrailingSlashes base ++ '/' :: stripDotSlash u =
            (stripTrailingSlashes base ++ ['/']) ++ stripDotSlash u := by
          simp
        rw [this]
        exact isPdfUrlS_append_left _ _ hstrip

/-- The legacy environment for the C3 counterexample: the direct panel scan
finds nothing, the page URL is not artifact-typed, and the popup settles on
a non-artifact viewer page.  `getAddendumUrl` returns the popup address
without any artifact-type check. -/
def c3BadLegacyEnv : LegacyEnv :=
  ⟨[], "https://www.auction.com/details/x".toList,
   "https://www.auction.com/viewer".toList, [], fun _ => [], [],
   ⟨[], [], []⟩⟩

/-- Counterexample to C3 as stated.  The legacy fallback `getAddendumUrl`
returns the popup address as resolved without applying the artifact-type
check: on this environment it returns a non-empty address that fails
`isPdfUrl`, so the claimed invariant does not hold for the legacy chain
(the runtime-capture addresses on its last line are passed through
unchecked as well). -/
theorem c3_counterexample :
    getAddendumUrl c3BadLegacyEnv auctionBase =
      "https://www.auction.com/viewer".toList ∧
    getAddendumUrl c3BadLegacyEnv auctionBase ≠ [] ∧
    isPdfUrlS (getAddendumUrl c3BadLegacyEnv auctionBase) = false := by
  refine ⟨by decide, by decide, by decide⟩

/-- C3 as amended.  The tile locator `clickTileAndSniffPdf` satisfies the
invariant: every non-empty address it returns passes the artifact-type
check `isPdfUrl` (each of its signal sources is guarded by `isPdfUrl`, and
`toAbs` preserves the check).  The legacy `getAddendumUrl` does not share
this guarantee (see the counterexample): its popup and runtime-capture
addresses are returned unchecked, and browser-reported addresses are
absolute only by environment guarantee, not by this code. -/
theorem c3_clickTile_artifact_typed (env : ClickEnv) (tile : Tile)
    (h : clickTileAndSniffPdf env tile ≠ []) :
    isPdfUrlS (clickTileAndSniffPdf env tile) = true := by
  have hcap : clickCapturePart env ≠ [] →
      isPdfUrlS (clickCapturePart env) = true := by
    intro hc
    unfold clickCapturePart at hc ⊢
    by_cases h6 : isPdfUrlS env.capture.openUrl = true
    · rw [if_pos h6]
      exact isPdfUrlS_toAbs _ _ h6
    · rw [if_neg h6] at hc ⊢
      by_cases h7 : isPdfUrlS env.capture.anchorHref = true
      · rw [if_pos h7]
        exact isPdfUrlS_toAbs _ _ h7
      · rw [if_neg h7] at hc ⊢
        by_cases h8 : (!(env.capture.blobUrls.headD []).isEmpty &&
            isPdfUrlS (env.capture.blobUrls.headD [])) = true
        · rw [if_pos h8]
          simp only [Bool.and_eq_true] at h8
          exact h8.2
        · rw [if_neg h8] at hc
          exact absurd rfl hc
  unfold clickTileAndSniffPdf at h ⊢
  by_cases h1 : (!tile.href.isEmpty && isPdfUrlS tile.href) = true
  · rw [if_pos h1]
    exact isPdfUrlS_toAbs _ _ (by
      simp only [Bool.and_eq_true] at h1
      exact h1.2)
  · rw [if_neg h1] at h ⊢
    by_cases h2 : isPdfUrlS env.nowUrl = true
    · rw [if_pos h2]; exact h2
    · rw [if_neg h2] at h ⊢
      by_cases h3 : isPdfUrlS env.popupUrl = true
      · rw [if_pos h3]; exact h3
      · rw [if_neg h3] at h ⊢
        by_cases h4 : (!(env.pdfHits.headD []).isEmpty &&
            isPdfUrlS (env.pdfHits.headD [])) = true
        · rw [if_pos h4]
          simp only [Bool.and_eq_true] at h4
          exact h4.2
        · rw [if_neg h4] at h ⊢
          by_cases h5 : (!(env.cdpPdfUrls.headD []).isEmpty &&
              isPdfUrlS (env.cdpPdfUrls.headD [])) = true
          · rw [if_pos h5]
            simp only [Bool.and_eq_true] at h5
            exact h5.2
          · rw [if_neg h5] at h ⊢
            rcases hp : clickPerf env with - | p
            · rw [hp] at h
              show isPdfUrlS (clickCapturePart env) = true
              exact hcap h
            · show isPdfUrlS p = true
              rcases List.exists_of_findSome?_eq_some hp with ⟨i, -, hi⟩
              by_cases hip : isPdfUrlS (env.perfRounds i) = true
              · rw [if_pos hip] at hi
                injection hi with hi
                rw [← hi]
                exact hip
              · rw [if_neg hip] at hi
                cases hi

/-- The C3 witness environment: a tile whose discovered reference is a
relative artifact address. -/
def c3WitnessEnv : ClickEnv :=
  ⟨[], [], [], [], fun _ => [], ⟨[], [], []⟩⟩

/-- The C3 witness tile. -/
def c3WitnessTile : Tile :=
  ⟨"Purchase Agreement Addendum".toList, "/docs/paa.pdf".toList, 0, []⟩

/-- Witness for the amended C3 theorem: the href branch resolves to an
absolute artifact-typed address accepted by `isPdfUrl`. -/
theorem c3_clickTile_artifact_typed_witness :
    clickTileAndSniffPdf c3WitnessEnv c3WitnessTile ≠ [] ∧
    isPdfUrlS (clickTileAndSniffPdf c3WitnessEnv c3WitnessTile) = true := by
  refine ⟨by decide, c3_clickTile_artifact_typed c3WitnessEnv c3WitnessTile (by decide)⟩

/- ------------------------------------------------------------------ -/
/- C4: the two-phase timeout race                                      -/
/- ------------------------------------------------------------------ -/

/-- Every outcome of the orchestrator carries a non-empty reason tag, so
the `paa_slow` tagging branch (`if (!late.selection_reason)`) never fires
for a successfully completed resolution. -/
theorem getBest_reason_ne_nil (env : PageEnv) :
    (getBestAddendumAndDetect env).selection_reason ≠ [] := by
  unfold getBestAddendumAndDetect
  split
  · unfold fallbackChain
    split
    · exact (by decide : ("hydration_paa".toList : List Char) ≠ [])
    · split
      · exact (by decide : ("paa_not_found".toList : List Char) ≠ [])
      · exact (by decide : ("legacy_paa".toList : List Char) ≠ [])
  · split
    · exact (by decide : ("paa_cwcot_hit".toList : List Char) ≠ [])
    · exact (by decide : ("paa_no_cwcot".toList : List Char) ≠ [])

/-- Counterexample to C4 as stated.  A resolution that completes only
within the extended second wait is returned with its original reason
(`paa_cwcot_hit` here) unmodified — not with the slow-completion marker —
because the `paa_slow` tag is applied only when the reason field is empty,
and orchestrator outcomes always carry a reason. -/
theorem c4_counterexample :
    mainLoopPick (.ok (getBestAddendumAndDetect c2Env)) .withinExtension =
      .ok (getBestAddendumAndDetect c2Env) ∧
    (getBestAddendumAndDetect c2Env).selection_reason = "paa_cwcot_hit".toList ∧
    "paa_cwcot_hit".toList ≠ "paa_slow".toList := by
  refine ⟨rfl, by decide, by decide⟩

/-- C4 as amended.  Orchestrator outcomes always carry a non-empty reason,
so a resolution completing after the initial budget but within the
extension supersedes the default with its original reason unmodified (the
`paa_slow` marker would be applied only to an empty reason, which cannot
occur); if the extension also lapses — or the late task failed — the
default `timeout_no_paa` outcome stands. -/
theorem c4_slow_path (env : PageEnv) :
    (getBestAddendumAndDetect env).selection_reason ≠ [] ∧
    mainLoopPick (.ok (getBestAddendumAndDetect env)) .withinExtension =
      .ok (getBestAddendumAndDetect env) ∧
    (∀ det : Except (List Char) Outcome,
      mainLoopPick det .afterExtension = .ok defaultDetectResult) ∧
    (∀ e : List Char,
      mainLoopPick (.error e) .withinExtension = .ok defaultDetectResult) ∧
    defaultDetectResult.selection_reason = "timeout_no_paa".toList := by
  have hne := getBest_reason_ne_nil env
  refine ⟨hne, ?_, fun det => rfl, fun e => rfl, rfl⟩
  show Except.ok (if (getBestAddendumAndDetect env).selection_reason.isEmpty = true
      then { getBestAddendumAndDetect env with
             selection_reason := "paa_slow".toList }
      else getBestAddendumAndDetect env) =
    Except.ok (getBestAddendumAndDetect env)
  rw [if_neg (by simpa [List.isEmpty_iff] using hne)]

/- ------------------------------------------------------------------ -/
/- C5: the legacy fallback chain                                       -/
/- ------------------------------------------------------------------ -/

/-- The hydration-scan outcome address of the C5 environment. -/
def c5HiddenUrl : List Char :=
  "https://cdn.imgix.net/resi/globalDocuments/purchase_agreement_addendum.pdf".toList

/-- The direct panel anchor of the C5 environment (the claim's stage (a)
would resolve it). -/
def c5DirectAnchor : Anchor :=
  ⟨"Purchase Agreement Addendum".toList, "/docs/direct.pdf".toList⟩

/-- The C5 legacy environment: the direct panel scan succeeds. -/
def c5LegacyEnv : LegacyEnv :=
  ⟨[c5DirectAnchor], [], [], [], fun _ => [], [], ⟨[], [], []⟩⟩

/-- The C5 page environment: no tiles, one hidden hydration link, and a
direct panel anchor available to the legacy scan. -/
def c5Env : PageEnv :=
  ⟨[], fun _ => [], fun u => ⟨false, [], [], [], "pdfjs".toList, u⟩,
   [c5HiddenUrl], c5LegacyEnv, auctionBase⟩

/-- Counterexample to C5 as stated.  The claim's stage order is (a) direct
panel-anchor scan, then (b) hydration scan; with both stages able to
succeed, the claimed chain would return the direct anchor's address.  The
code runs the hydration scan FIRST: the outcome is `hydration_paa` with the
hidden address, while the direct scan (`getAddendumUrl`) would have
returned a different address. -/
theorem c5_counterexample :
    (getBestAddendumAndDetect c5Env).selection_reason = "hydration_paa".toList ∧
    (getBestAddendumAndDetect c5Env).url = c5HiddenUrl ∧
    getAddendumUrl c5Env.legacyEnv c5Env.baseUrl =
      "https://www.auction.com/docs/direct.pdf".toList ∧
    c5HiddenUrl ≠ "https://www.auction.com/docs/direct.pdf".toList := by
  refine ⟨by decide, by decide, by decide, by decide⟩

/-- C5 as amended.  When no TargetAddendum candidate yields a result, the
orchestrator runs the fallback chain in this order: (b') scan of the full
page markup for hydration-embedded artifact addresses matching the target
pattern, then (a') the legacy `getAddendumUrl` — whose own first stage is
the direct panel-anchor scan (target label pattern, prohibited variant
excluded, artifact-typed href), followed by a single-shot interactive
attempt with signal polling.  The first stage to succeed determines the
outcome (`hydration_paa` then `legacy_paa`); exhaustion of the chain yields
the `paa_not_found` reason with an all-empty result. -/
theorem c5_fallback_chain (env : PageEnv)
    (hres : (paaLoop env.click env.analyze (env.tiles.filter isPAATile)
      emptyTrace).results = []) :
    (∀ u, env.hydrationLinks.find?
        (fun u => testM paaDotRe u || testM paaDotRe2 u) = some u →
      getBestAddendumAndDetect env =
        outcomeOfHit ("hydration_paa".toList)
          ⟨"(hidden PAA)".toList, u, env.analyze u⟩ env.tiles) ∧
    (env.hydrationLinks.find?
        (fun u => testM paaDotRe u || testM paaDotRe2 u) = none →
      getAddendumUrl env.legacyEnv env.baseUrl ≠ [] →
      getBestAddendumAndDetect env =
        outcomeOfHit ("legacy_paa".toList)
          ⟨"(legacy PAA)".toList, getAddendumUrl env.legacyEnv env.baseUrl,
           env.analyze (getAddendumUrl env.legacyEnv env.baseUrl)⟩
          env.tiles) ∧
    (env.hydrationLinks.find?
        (fun u => testM paaDotRe u || testM paaDotRe2 u) = none →
      getAddendumUrl env.legacyEnv env.baseUrl = [] →
      getBestAddendumAndDetect env = notFoundOutcome env.tiles) ∧
    (∀ el, env.legacyEnv.panelAnchors.find?
        (fun n => testM wantRe n.text && !testM prohibitedRe n.text &&
                  testM pdfExtRe n.href) = some el →
      getAddendumUrl env.legacyEnv env.baseUrl = toAbs el.href env.baseUrl) ∧
    (notFoundOutcome env.tiles).selection_reason = "paa_not_found".toList ∧
    (notFoundOutcome env.tiles).url = [] ∧
    (notFoundOutcome env.tiles).isCWCOT = false := by
  have hbest : getBestAddendumAndDetect env = fallbackChain env env.tiles := by
    unfold getBestAddendumAndDetect
    rw [if_pos (by rw [List.isEmpty_iff]; exact hres)]
  refine ⟨?_, ?_, ?_, ?_, rfl, rfl, rfl⟩
  · intro u hu
    rw [hbest]
    unfold fallbackChain
    rw [hu]
  · intro hnone hleg
    rw [hbest]
    unfold fallbackChain
    rw [hnone]
    rw [if_neg (by simpa [List.isEmpty_iff] using hleg)]
  · intro hnone hleg
    rw [hbest]
    unfold fallbackChain
    rw [hnone]
    rw [if_pos (by rw [List.isEmpty_iff]; exact hleg)]
  · intro el hel
    unfold getAddendumUrl
    rw [hel]

/-- Witness for the amended C5 theorem at the C5 environment: the
hydration stage succeeds and determines the outcome. -/
theorem c5_fallback_chain_witness :
    getBestAddendumAndDetect c5Env =
      outcomeOfHit ("hydration_paa".toList)
        ⟨"(hidden PAA)".toList, c5HiddenUrl, c5Env.analyze c5HiddenUrl⟩
        c5Env.tiles := by
  refine (c5_fallback_chain c5Env (by decide)).1 c5HiddenUrl (by decide)

/- ------------------------------------------------------------------ -/
/- C7: revision-tag extraction                                         -/
/- ------------------------------------------------------------------ -/

theorem takeDigits_spec :
    ∀ (n : Nat) (l d r : List Char), takeDigits n l = some (d, r) →
      d.all isDigitCh = true ∧ d.length = n ∧ l = d ++ r := by
  intro n
  induction n with
  | zero =>
    intro l d r h
    simp only [takeDigits, Option.some.injEq, Prod.mk.injEq] at h
    obtain ⟨rfl, rfl⟩ := h
    simp
  | succ n ih =>
    intro l d r h
    cases l with
    | nil => simp [takeDigits] at h
    | cons c l2 =>
      simp only [takeDigits] at h
      by_cases hc : isDigitCh c
      · rw [if_pos hc] at h
        rcases ht : takeDigits n l2 with - | ⟨d2, r2⟩
        · rw [ht] at h; cases h
        · rw [ht] at h
          simp only [Option.some.injEq, Prod.mk.injEq] at h
          obtain ⟨rfl, rfl⟩ := h
          rcases ih l2 d2 r2 ht with ⟨hall, hlen, happ⟩
          refine ⟨by simp [hall, hc], by simp [hlen], by simp [happ]⟩
      · rw [if_neg hc] at h; cases h

theorem digitsRange_mem {lo hi : Nat} {l d r : List Char}
    (h : (d, r) ∈ digitsRange lo hi l) :
    d.all isDigitCh = true ∧ lo ≤ d.length ∧ d.length ≤ hi ∧ l = d ++ r := by
  unfold digitsRange at h
  rcases List.mem_filterMap.mp h with ⟨k, hk, htake⟩
  rcases List.mem_map.mp hk with ⟨i, hi, rfl⟩
  rcases takeDigits_spec _ _ _ _ htake with ⟨hall, hlen, happ⟩
  simp only [List.mem_range] at hi
  exact ⟨hall, by omega, by omega, happ⟩

/-- Shape of a successful group capture: three dot-separated digit runs of
widths 1-2, 1-2 and 2-4. -/
theorem revGroup_shape {l cap : List Char} (h : revGroup l = some cap) :
    ∃ d1 d2 d3, cap = d1 ++ '.' :: d2 ++ '.' :: d3 ∧
      d1.all isDigitCh = true ∧ 1 ≤ d1.length ∧ d1.length ≤ 2 ∧
      d2.all isDigitCh = true ∧ 1 ≤ d2.length ∧ d2.length ≤ 2 ∧
      d3.all isDigitCh = true ∧ 2 ≤ d3.length ∧ d3.length ≤ 4 := by
  unfold revGroup at h
  rcases List.exists_of_findSome?_eq_some h with ⟨⟨d1, r1⟩, hp1, h1⟩
  rcases digitsRange_mem hp1 with ⟨ha1, hlo1, hhi1, -⟩
  simp only at h1
  cases r1 with
  | nil => simp [dotThen] at h1
  | cons c r2 =>
    rw [dotThen_cons] at h1
    by_cases hc : c = '.'
    · rw [if_pos hc] at h1
      rcases List.exists_of_findSome?_eq_some h1 with ⟨⟨d2, r3⟩, hp2, h2⟩
      rcases digitsRange_mem hp2 with ⟨ha2, hlo2, hhi2, -⟩
      simp only at h2
      cases r3 with
      | nil => simp [dotThen] at h2
      | cons c2 r4 =>
        rw [dotThen_cons] at h2
        by_cases hc2 : c2 = '.'
        · rw [if_pos hc2] at h2
          rcases List.exists_of_findSome?_eq_some h2 with ⟨⟨d3, r5⟩, hp3, h3⟩
          rcases digitsRange_mem hp3 with ⟨ha3, hlo3, hhi3, -⟩
          simp only [Option.some.injEq] at h3
          exact ⟨d1, d2, d3, h3.symm, ha1, hlo1, hhi1, ha2, hlo2, hhi2,
            ha3, hlo3, hhi3⟩
        · rw [if_neg hc2] at h2; cases h2
    · rw [if_neg hc] at h1; cases h1

/-- Shape of a successful `revAt` attempt. -/
theorem revAt_shape {l cap : List Char} (h : revAt l = some cap) :
    ∃ d1 d2 d3, cap = d1 ++ '.' :: d2 ++ '.' :: d3 ∧
      d1.all isDigitCh = true ∧ 1 ≤ d1.length ∧ d1.length ≤ 2 ∧
      d2.all isDigitCh = true ∧ 1 ≤ d2.length ∧ d2.length ≤ 2 ∧
      d3.all isDigitCh = true ∧ 2 ≤ d3.length ∧ d3.length ≤ 4 := by
  unfold revAt at h
  by_cases hpre : ("rev".toList).isPrefixOf l
  · rw [if_pos hpre] at h
    simp only at h
    rcases List.exists_of_findSome?_eq_some h with ⟨r1, -, h1⟩
    rcases List.exists_of_findSome?_eq_some h1 with ⟨r2, -, h2⟩
    exact revGroup_shape h2
  · rw [if_neg hpre] at h; cases h

/-- Shape of the scanner's result: empty, or a three-component tag. -/
theorem revScan_shape (t : List Char) :
    revScan t = [] ∨
    ∃ d1 d2 d3, revScan t = d1 ++ '.' :: d2 ++ '.' :: d3 ∧
      d1.all isDigitCh = true ∧ 1 ≤ d1.length ∧ d1.length ≤ 2 ∧
      d2.all isDigitCh = true ∧ 1 ≤ d2.length ∧ d2.length ≤ 2 ∧
      d3.all isDigitCh = true ∧ 2 ≤ d3.length ∧ d3.length ≤ 4 := by
  induction t with
  | nil => exact Or.inl rfl
  | cons c r ih =>
    rcases h : revAt (c :: r) with - | cap
    · have hstep : revScan (c :: r) = revScan r := by
        conv_lhs => unfold revScan
        rw [h]
      rw [hstep]
      exact ih
    · have hstep : revScan (c :: r) = cap := by
        conv_lhs => unfold revScan
        rw [h]
      rw [hstep]
      exact Or.inr (revAt_shape h)

/-- Counterexample to C7 as stated.  A two-component revision such as
`rev 1.2` does NOT yield a tag: the source pattern
`/rev\.?\s*([0-9]{1,2}\.[0-9]{1,2}\.[0-9]{2,4})/` requires three
dot-separated components, so the extracted tag is empty. -/
theorem c7_counterexample :
    (detectCWCOTInText ("rev 1.2".toList) []).cwcot_rev = [] := by
  decide

/-- C7 as amended.  The revision tag is extracted via a
`rev <1-2 digits>.<1-2 digits>.<2-4 digits>` pattern — all three components
required: text containing `Rev. 3.14.24` yields tag `3.14.24`, the
two-component `rev 1.2` yields the empty tag, any extracted tag has the
three-component digit shape, and an input without the pattern yields the
empty tag (extraction is total, never an error). -/
theorem c7_rev_extraction :
    (detectCWCOTInText ("Rev. 3.14.24".toList) []).cwcot_rev =
      "3.14.24".toList ∧
    (detectCWCOTInText ("rev 1.2".toList) []).cwcot_rev = [] ∧
    (∀ raw fn, (detectCWCOTInText raw fn).cwcot_rev = [] ∨
      ∃ d1 d2 d3, (detectCWCOTInText raw fn).cwcot_rev =
          d1 ++ '.' :: d2 ++ '.' :: d3 ∧
        d1.all isDigitCh = true ∧ 1 ≤ d1.length ∧ d1.length ≤ 2 ∧
        d2.all isDigitCh = true ∧ 1 ≤ d2.length ∧ d2.length ≤ 2 ∧
        d3.all isDigitCh = true ∧ 2 ≤ d3.length ∧ d3.length ≤ 4) ∧
    (detectCWCOTInText ("no revision here".toList) []).cwcot_rev = [] := by
  refine ⟨by decide, by decide, ?_, by decide⟩
  intro raw fn
  exact revScan_shape (lowerStr (normText raw))

/- ------------------------------------------------------------------ -/
/- C6: union text classification                                       -/
/- ------------------------------------------------------------------ -/

/-- `w` occurs in `t` delimited by word boundaries (preceded and followed
by a non-word character or a text edge). -/
def WordBoundedAt (t w : List Char) : Prop :=
  ∃ pre post, t = pre ++ w ++ post ∧
    (pre = [] ∨ ∃ c, pre.getLast? = some c ∧ isWordChar c = false) ∧
    (post = [] ∨ ∃ c r, post = c :: r ∧ isWordChar c = false)

theorem mWb_pass {pc : Option Char} {l : List Char}
    (h : wordAt pc ≠ headWord l) : mWb (pc, l) = [(pc, l)] := by
  unfold mWb
  rw [if_pos h]

theorem clsStarG_mem_refl (p : Char → Bool) (pc : Option Char)
    (l : List Char) : ((pc, l) : MSt) ∈ clsStarG p pc l := by
  cases l <;> simp [clsStarG]

theorem clsStarG_mem_take (p : Char → Bool) :
    ∀ (a : List Char) (pc : Option Char) (rest : List Char),
      a.all p = true →
      ((lastPc a pc, rest) : MSt) ∈ clsStarG p pc (a ++ rest) := by
  intro a
  induction a with
  | nil =>
    intro pc rest _
    rw [lastPc_nil, List.nil_append]
    exact clsStarG_mem_refl p pc rest
  | cons c a2 ih =>
    intro pc rest hall
    simp only [List.all_cons, Bool.and_eq_true] at hall
    rw [lastPc_cons, List.cons_append]
    show _ ∈ clsStarG p pc (c :: (a2 ++ rest))
    unfold clsStarG
    rw [if_pos hall.1]
    exact List.mem_append_left _ (ih (some c) rest hall.2)

theorem mStar_mem_take (p : Char → Bool) (a : List Char) (pc : Option Char)
    (rest : List Char) (h : a.all p = true) :
    ((lastPc a pc, rest) : MSt) ∈ mStar p (pc, a ++ rest) :=
  clsStarG_mem_take p a pc rest h

theorem mStar_mem_refl (p : Char → Bool) (st : MSt) : st ∈ mStar p st :=
  clsStarG_mem_refl p st.1 st.2

theorem mOpt_mem_skip (a : Mch) (st : MSt) : st ∈ mOpt a st := by
  unfold mOpt
  exact List.mem_append_right _ (List.mem_singleton.mpr rfl)

/-- A word-bounded occurrence of `cwcot` makes rule 1 match. -/
theorem cwcotRe_at {pc : Option Char} {post : List Char}
    (hL : wordAt pc = false) (hR : headWord post = false) :
    cwcotRe (pc, "cwcot".toList ++ post) ≠ [] := by
  have h1 : ((pc, "cwcot".toList ++ post) : MSt) ∈
      mWb (pc, "cwcot".toList ++ post) := by
    rw [mWb_pass (by
      rw [hL, show headWord ("cwcot".toList ++ post) = true from rfl]
      decide)]
    exact List.mem_singleton.mpr rfl
  have h2 : ((some 't', post) : MSt) ∈
      litCI ("cwcot".toList) (pc, "cwcot".toList ++ post) :=
    mem_litCI.mpr ⟨"cwcot".toList, rfl, by decide, rfl⟩
  have h3 : ((some 't', post) : MSt) ∈ mWb (some 't', post) := by
    rw [mWb_pass (by rw [hR]; decide)]
    exact List.mem_singleton.mpr rfl
  exact List.ne_nil_of_mem (mem_mSeq.mpr ⟨_, h1, mem_mSeq.mpr ⟨_, h2, h3⟩⟩)

/-- A word-bounded occurrence of `second chance` makes rule 4 match. -/
theorem secondChanceRe_at {pc : Option Char} {post : List Char}
    (hL : wordAt pc = false) (hR : headWord post = false) :
    secondChanceRe (pc, "second chance".toList ++ post) ≠ [] := by
  have hsplit : "second chance".toList ++ post =
      "second".toList ++ ([' '] ++ ("chance".toList ++ post)) := rfl
  have h1 : ((pc, "second chance".toList ++ post) : MSt) ∈
      mWb (pc, "second chance".toList ++ post) := by
    rw [mWb_pass (by
      rw [hL, show headWord ("second chance".toList ++ post) = true from rfl]
      decide)]
    exact List.mem_singleton.mpr rfl
  have h2 : ((some 'd', [' '] ++ ("chance".toList ++ post)) : MSt) ∈
      litCI ("second".toList) (pc, "second chance".toList ++ post) := by
    refine mem_litCI.mpr ⟨"second".toList, ?_, by decide, rfl⟩
    rw [hsplit]
  have h3 : ((some ' ', "chance".toList ++ post) : MSt) ∈
      mStar isJsSpace (some 'd', [' '] ++ ("chance".toList ++ post)) :=
    mStar_mem_take isJsSpace [' '] (some 'd') ("chance".toList ++ post)
      (by decide)
  have h4 : ((some ' ', "chance".toList ++ post) : MSt) ∈
      mOpt (chCls isDashSp) (some ' ', "chance".toList ++ post) :=
    mOpt_mem_skip _ _
  have h5 : ((some ' ', "chance".toList ++ post) : MSt) ∈
      mStar isJsSpace (some ' ', "chance".toList ++ post) :=
    mStar_mem_refl _ _
  have h6 : ((some 'e', post) : MSt) ∈
      litCI ("chance".toList) (some ' ', "chance".toList ++ post) :=
    mem_litCI.mpr ⟨"chance".toList, rfl, by decide, rfl⟩
  have h7 : ((some 'e', post) : MSt) ∈ mWb (some 'e', post) := by
    rw [mWb_pass (by rw [hR]; decide)]
    exact List.mem_singleton.mpr rfl
  refine List.ne_nil_of_mem (mem_mSeq.mpr ⟨_, h1, mem_mSeq.mpr ⟨_, h2,
    mem_mSeq.mpr ⟨_, h3, mem_mSeq.mpr ⟨_, h4,
      mem_mSeq.mpr ⟨_, h5, mem_mSeq.mpr ⟨_, h6, h7⟩⟩⟩⟩⟩⟩)

/-- A word-bounded occurrence makes a boundary-delimited pattern match the
full-text test. -/
theorem testM_of_wordBounded {m : Mch} {t w : List Char}
    (hw : WordBoundedAt t w)
    (hm : ∀ (pc : Option Char) (post : List Char),
      wordAt pc = false → headWord post = false →
      m (pc, w ++ post) ≠ []) :
    testM m t = true := by
  rcases hw with ⟨pre, post, ht, hpre, hpost⟩
  unfold testM
  refine testAux_iff.mpr ⟨pre, w ++ post, by rw [ht, List.append_assoc], ?_⟩
  refine hm _ _ ?_ ?_
  · rcases hpre with rfl | ⟨c, hc, hcw⟩
    · rfl
    · unfold lastPc
      rw [hc]
      exact hcw
  · rcases hpost with rfl | ⟨c, r, rfl, hcw⟩
    · rfl
    · exact hcw

/-- Two distinct members force length at least two. -/
theorem two_le_length_of_mem_ne {α : Type} {a b : α} {l : List α}
    (ha : a ∈ l) (hb : b ∈ l) (hne : a ≠ b) : 2 ≤ l.length := by
  cases l with
  | nil => cases ha
  | cons x l2 =>
    cases l2 with
    | nil =>
      simp only [List.mem_singleton] at ha hb
      exact absurd (ha.trans hb.symm) hne
    | cons y l3 =>
      simp only [List.length_cons]
      omega

/-- Counterexample to C6 as stated.  Containment of `CWCOT` and
`second chance` as substrings is not enough: in
`xcwcotx xsecond chancex` both strings occur (case-insensitively, in the
normalized text), yet the rules use word boundaries, no rule matches,
`matchedRules` is empty and `isMatch` is false. -/
theorem c6_counterexample :
    hasInfix ("cwcot".toList)
      (lowerStr (normText ("xcwcotx xsecond chancex".toList))) = true ∧
    hasInfix ("second chance".toList)
      (lowerStr (normText ("xcwcotx xsecond chancex".toList))) = true ∧
    (detectCWCOTInText ("xcwcotx xsecond chancex".toList) []).hits = [] ∧
    (detectCWCOTInText ("xcwcotx xsecond chancex".toList) []).isCWCOT = false := by
  refine ⟨by decide, by decide, by decide, by decide⟩

/-- C6 as amended.  Text classification is a union over a non-exclusive
rule set: every rule whose pattern matches the normalized case-folded text
is recorded in the matched-rule list (no first-match cut-off); `isMatch` is
true iff that list is non-empty; and any text containing both `CWCOT` and
`second chance` as word-boundary-delimited occurrences of its normalized
case-folded text yields at least two matched rules and `isMatch = true`. -/
theorem c6_union_classification :
    (∀ (raw fn : List Char), ∀ r ∈ RULES,
      testM r.re (lowerStr (normText raw)) = true →
      r.k ∈ (detectCWCOTInText raw fn).hits) ∧
    (∀ raw fn : List Char,
      (detectCWCOTInText raw fn).isCWCOT = true ↔
        (detectCWCOTInText raw fn).hits ≠ []) ∧
    (∀ raw fn : List Char,
      WordBoundedAt (lowerStr (normText raw)) ("cwcot".toList) →
      WordBoundedAt (lowerStr (normText raw)) ("second chance".toList) →
      2 ≤ (detectCWCOTInText raw fn).hits.length ∧
      (detectCWCOTInText raw fn).isCWCOT = true) := by
  have hmem : ∀ (raw fn : List Char), ∀ r ∈ RULES,
      testM r.re (lowerStr (normText raw)) = true →
      r.k ∈ (detectCWCOTInText raw fn).hits := by
    intro raw fn r hr htest
    unfold detectCWCOTInText
    refine List.mem_append_left _ (List.mem_filterMap.mpr ⟨r, hr, ?_⟩)
    rw [htest]
    rfl
  refine ⟨hmem, ?_, ?_⟩
  · intro raw fn
    show decide ((detectCWCOTInText raw fn).hits.length > 0) = true ↔ _
    rcases hh : (detectCWCOTInText raw fn).hits with - | ⟨a, l⟩
    · simp
    · simp
  · intro raw fn h1 h2
    have ht1 : testM cwcotRe (lowerStr (normText raw)) = true :=
      testM_of_wordBounded h1 (fun pc post hL hR => cwcotRe_at hL hR)
    have ht2 : testM secondChanceRe (lowerStr (normText raw)) = true :=
      testM_of_wordBounded h2 (fun pc post hL hR => secondChanceRe_at hL hR)
    have hm1 : ("CWCOT".toList : List Char) ∈ (detectCWCOTInText raw fn).hits :=
      hmem raw fn ⟨cwcotRe, "CWCOT".toList⟩ (by simp [RULES]) ht1
    have hm2 : ("Second Chance".toList : List Char) ∈
        (detectCWCOTInText raw fn).hits :=
      hmem raw fn ⟨secondChanceRe, "Second Chance".toList⟩ (by simp [RULES]) ht2
    have hlen : 2 ≤ (detectCWCOTInText raw fn).hits.length :=
      two_le_length_of_mem_ne hm1 hm2 (by decide)
    refine ⟨hlen, ?_⟩
    show decide ((detectCWCOTInText raw fn).hits.length > 0) = true
    exact decide_eq_true (by omega)

/-- Witness for the amended C6 theorem on `CWCOT second chance`. -/
theorem c6_union_classification_witness :
    2 ≤ (detectCWCOTInText ("CWCOT second chance".toList) []).hits.length ∧
    (detectCWCOTInText ("CWCOT second chance".toList) []).isCWCOT = true := by
  refine c6_union_classification.2.2 ("CWCOT second chance".toList) [] ?_ ?_
  · refine ⟨[], " second chance".toList, by decide, Or.inl rfl, ?_⟩
    exact Or.inr ⟨' ', "second chance".toList, by decide, by decide⟩
  · refine ⟨"cwcot ".toList, [], by decide, ?_, Or.inl rfl⟩
    exact Or.inr ⟨' ', by decide, by decide⟩

/- ------------------------------------------------------------------ -/
/- C1: whitespace-collapse lemmas for the label classifier             -/
/- ------------------------------------------------------------------ -/

theorem collapseAux_cons_space {p : Char → Bool} {c : Char} {t : List Char}
    (hc : p c = true) :
    collapseAux p false (c :: t) = ' ' :: collapseAux p true t := by
  conv_lhs => unfold collapseAux
  rw [if_pos hc, if_neg (by decide : ¬(false = true))]

theorem collapseAux_cons_space_run {p : Char → Bool} {c : Char} {t : List Char}
    (hc : p c = true) :
    collapseAux p true (c :: t) = collapseAux p true t := by
  conv_lhs => unfold collapseAux
  rw [if_pos hc, if_pos (rfl : true = true)]

theorem collapseAux_cons_nonspace {p : Char → Bool} {c : Char} {t : List Char}
    (b : Bool) (hc : p c = false) :
    collapseAux p b (c :: t) = c :: collapseAux p false t := by
  conv_lhs => unfold collapseAux
  rw [if_neg (by simp [hc])]

/-- Inside a run, collapsing is collapsing after the run. -/
theorem collapseAux_true_dropWhile (p : Char → Bool) :
    ∀ t : List Char,
      collapseAux p true t = collapseAux p false (t.dropWhile p) := by
  intro t
  induction t with
  | nil => rfl
  | cons c t2 ih =>
    by_cases hc : p c
    · rw [collapseAux_cons_space_run hc, ih, List.dropWhile_cons, if_pos hc]
    · have hc' : p c = false := by simpa using hc
      rw [List.dropWhile_cons, if_neg (by simp [hc'])]
      rw [collapseAux_cons_nonspace true hc', collapseAux_cons_nonspace false hc']

/-- Peeling a run-free word from the front of a collapsed string: the
original string starts with an (absorbed) whitespace run followed by the
word, and the collapse continues on the remainder.  `p ' ' = true` is the
well-formedness of the whitespace class (it holds for the JS classes
used). -/
theorem collapse_peel_word (p : Char → Bool) (hspc : p ' ' = true) :
    ∀ (t W : List Char), (∀ c ∈ W, p c = false) →
      ∀ (b : Bool) (rest : List Char),
        collapseAux p b t = W ++ rest →
        ∃ sp t2, t = sp ++ W ++ t2 ∧ (∀ c ∈ sp, p c = true) ∧
          collapseAux p false t2 = rest := by
  intro t
  induction t with
  | nil =>
    intro W hW b rest h
    have hnil : collapseAux p b ([] : List Char) = [] := by cases b <;> rfl
    rw [hnil] at h
    obtain ⟨rfl, rfl⟩ : W = [] ∧ rest = [] := by
      cases W with
      | nil => exact ⟨rfl, by simpa using h.symm⟩
      | cons a w2 => simp at h
    exact ⟨[], [], rfl, by simp, rfl⟩
  | cons c t2 ih =>
    intro W hW b rest h
    by_cases hc : p c
    · cases b with
      | true =>
        rw [collapseAux_cons_space_run hc] at h
        rcases ih W hW true rest h with ⟨sp, t3, ht, hsp, hcol⟩
        refine ⟨c :: sp, t3, by simp [ht], ?_, hcol⟩
        intro x hx
        rcases List.mem_cons.mp hx with rfl | hx2
        · exact hc
        · exact hsp x hx2
      | false =>
        rw [collapseAux_cons_space hc] at h
        cases W with
        | nil =>
          refine ⟨[], c :: t2, rfl, by simp, ?_⟩
          rw [collapseAux_cons_space hc]
          simpa using h
        | cons w W2 =>
          exfalso
          simp only [List.cons_append, List.cons.injEq] at h
          have hw : p w = false := hW w (List.mem_cons_self w W2)
          rw [← h.1] at hw
          rw [hspc] at hw
          cases hw
    · have hc' : p c = false := by simpa using hc
      rw [collapseAux_cons_nonspace b hc'] at h
      cases W with
      | nil =>
        refine ⟨[], c :: t2, rfl, by simp, ?_⟩
        rw [collapseAux_cons_nonspace false hc']
        simpa using h
      | cons w W2 =>
        simp only [List.cons_append, List.cons.injEq] at h
        obtain ⟨rfl, h2⟩ := h
        rcases ih W2 (fun x hx => hW x (List.mem_cons_of_mem _ hx)) false
          rest h2 with ⟨sp, t3, ht, hsp, hcol⟩
        cases W2 with
        | nil =>
          exact ⟨[], t2, by simp, by simp, by simpa using h2⟩
        | cons w2 W3 =>
          cases sp with
          | nil =>
            exact ⟨[], t3, by simpa using ht, by simp, hcol⟩
          | cons s sp2 =>
            exfalso
            have hs : p s = true := hsp s (List.mem_cons_self s sp2)
            rw [ht] at h2
            rw [show ((s :: sp2) ++ (w2 :: W3) ++ t3 : List Char) =
              s :: (sp2 ++ (w2 :: W3) ++ t3) by simp] at h2
            rw [collapseAux_cons_space hs] at h2
            simp only [List.cons_append, List.cons.injEq] at h2
            have hw2 : p w2 = false :=
              hW w2 (List.mem_cons_of_mem _ (List.mem_cons_self w2 W3))
            rw [← h2.1, hspc] at hw2
            cases hw2

/-- A leading space in a collapsed string corresponds to a non-empty
whitespace run in the original. -/
theorem collapse_peel_space (p : Char → Bool) (hspc : p ' ' = true) :
    ∀ (t rest : List Char), collapseAux p false t = ' ' :: rest →
      ∃ sp t2, t = sp ++ t2 ∧ sp ≠ [] ∧ (∀ c ∈ sp, p c = true) ∧
        collapseAux p false t2 = rest := by
  intro t rest h
  cases t with
  | nil => simp [collapseAux] at h
  | cons c t2 =>
    by_cases hc : p c
    · rw [collapseAux_cons_space hc] at h
      simp only [List.cons.injEq, true_and] at h
      refine ⟨c :: t2.takeWhile p, t2.dropWhile p, ?_, by simp, ?_, ?_⟩
      · rw [List.cons_append, List.takeWhile_append_dropWhile]
      · intro x hx
        rcases List.mem_cons.mp hx with rfl | hx2
        · exact hc
        · exact List.mem_takeWhile_imp hx2
      · rw [← collapseAux_true_dropWhile]
        exact h
    · have hc' : p c = false := by simpa using hc
      rw [collapseAux_cons_nonspace false hc'] at h
      simp only [List.cons.injEq] at h
      rw [h.1] at hc'
      rw [hspc] at hc'
      cases hc'

/-- `hasInfix` decides substring containment. -/
theorem hasInfix_iff {w : List Char} :
    ∀ {l : List Char}, hasInfix w l = true ↔ ∃ u v, l = u ++ w ++ v := by
  intro l
  induction l with
  | nil =>
    simp only [hasInfix, List.isEmpty_iff]
    constructor
    · rintro rfl
      exact ⟨[], [], rfl⟩
    · rintro ⟨u, v, huv⟩
      rcases u with - | ⟨a, u2⟩
      · rcases w with - | ⟨b, w2⟩
        · rfl
        · simp at huv
      · simp at huv
  | cons c r ih =>
    simp only [hasInfix, Bool.or_eq_true]
    constructor
    · rintro (h | h)
      · rcases List.isPrefixOf_iff_prefix.mp h with ⟨v, hv⟩
        exact ⟨[], v, by simp [hv.symm]⟩
      · rcases ih.mp h with ⟨u, v, huv⟩
        exact ⟨c :: u, v, by simp [huv]⟩
    · rintro ⟨u, v, huv⟩
      cases u with
      | nil =>
        left
        refine List.isPrefixOf_iff_prefix.mpr ⟨v, ?_⟩
        simpa using huv.symm
      | cons a u2 =>
        right
        simp only [List.cons_append, List.cons.injEq] at huv
        exact ih.mpr ⟨u2, v, huv.2⟩

/-- The prohibited-pattern matcher succeeds on a word-spaces-word-spaces-word
instance. -/
theorem prohibitedRe_at (pc : Option Char) (spA spB rest : List Char)
    (hA : spA ≠ []) (haA : ∀ c ∈ spA, isJsSpace c = true)
    (hB : spB ≠ []) (haB : ∀ c ∈ spB, isJsSpace c = true) :
    prohibitedRe (pc, "prohibited".toList ++ (spA ++ ("sales".toList ++
      (spB ++ ("addendum".toList ++ rest))))) ≠ [] := by
  obtain ⟨s1, spA2, rfl⟩ : ∃ s sp2, spA = s :: sp2 := by
    cases spA with
    | nil => exact absurd rfl hA
    | cons s sp2 => exact ⟨s, sp2, rfl⟩
  obtain ⟨s2, spB2, rfl⟩ : ∃ s sp2, spB = s :: sp2 := by
    cases spB with
    | nil => exact absurd rfl hB
    | cons s sp2 => exact ⟨s, sp2, rfl⟩
  have hs1 : isJsSpace s1 = true := haA s1 (List.mem_cons_self _ _)
  have hs2 : isJsSpace s2 = true := haB s2 (List.mem_cons_self _ _)
  have haA2 : spA2.all isJsSpace = true :=
    List.all_eq_true.mpr (fun x hx => haA x (List.mem_cons_of_mem _ hx))
  have haB2 : spB2.all isJsSpace = true :=
    List.all_eq_true.mpr (fun x hx => haB x (List.mem_cons_of_mem _ hx))
  have hnorm : "prohibited".toList ++ ((s1 :: spA2) ++ ("sales".toList ++
      ((s2 :: spB2) ++ ("addendum".toList ++ rest)))) =
    "prohibited".toList ++ (s1 :: (spA2 ++ ("sales".toList ++
      (s2 :: (spB2 ++ ("addendum".toList ++ rest)))))) := by simp
  rw [hnorm]
  have m1 : ((lastPc ("prohibited".toList) pc,
      s1 :: (spA2 ++ ("sales".toList ++ (s2 :: (spB2 ++
        ("addendum".toList ++ rest)))))) : MSt) ∈
      litCI ("prohibited".toList) (pc, "prohibited".toList ++
        (s1 :: (spA2 ++ ("sales".toList ++ (s2 :: (spB2 ++
          ("addendum".toList ++ rest))))))) :=
    mem_litCI.mpr ⟨"prohibited".toList, rfl, by decide, rfl⟩
  have m2 : ((lastPc spA2 (some s1),
      "sales".toList ++ (s2 :: (spB2 ++ ("addendum".toList ++ rest)))) : MSt) ∈
      mPlus isJsSpace (lastPc ("prohibited".toList) pc,
        s1 :: (spA2 ++ ("sales".toList ++ (s2 :: (spB2 ++
          ("addendum".toList ++ rest)))))) := by
    refine mem_mSeq.mpr ⟨(some s1, spA2 ++ ("sales".toList ++
      (s2 :: (spB2 ++ ("addendum".toList ++ rest))))), ?_, ?_⟩
    · simp [chCls, hs1]
    · exact mStar_mem_take isJsSpace spA2 (some s1) _ haA2
  have m3 : ((lastPc ("sales".toList) (lastPc spA2 (some s1)),
      s2 :: (spB2 ++ ("addendum".toList ++ rest))) : MSt) ∈
      litCI ("sales".toList) (lastPc spA2 (some s1),
        "sales".toList ++ (s2 :: (spB2 ++ ("addendum".toList ++ rest)))) :=
    mem_litCI.mpr ⟨"sales".toList, rfl, by decide, rfl⟩
  have m4 : ((lastPc spB2 (some s2), "addendum".toList ++ rest) : MSt) ∈
      mPlus isJsSpace (lastPc ("sales".toList) (lastPc spA2 (some s1)),
        s2 :: (spB2 ++ ("addendum".toList ++ rest))) := by
    refine mem_mSeq.mpr ⟨(some s2, spB2 ++ ("addendum".toList ++ rest)),
      ?_, ?_⟩
    · simp [chCls, hs2]
    · exact mStar_mem_take isJsSpace spB2 (some s2) _ haB2
  have m5 : ((lastPc ("addendum".toList) (lastPc spB2 (some s2)),
      rest) : MSt) ∈
      litCI ("addendum".toList) (lastPc spB2 (some s2),
        "addendum".toList ++ rest) :=
    mem_litCI.mpr ⟨"addendum".toList, rfl, by decide, rfl⟩
  exact List.ne_nil_of_mem (mem_mSeq.mpr ⟨_, m1, mem_mSeq.mpr ⟨_, m2,
    mem_mSeq.mpr ⟨_, m3, mem_mSeq.mpr ⟨_, m4, m5⟩⟩⟩⟩)

/-- If the collapsed string begins with the prohibited phrase, the
pattern matches the original string. -/
theorem collapse_match_prohibited :
    ∀ (t : List Char) (b : Bool) (post : List Char) (pc : Option Char),
      collapseAux isJsSpace b t =
        "prohibited sales addendum".toList ++ post →
      testAux prohibitedRe pc t = true := by
  intro t b post pc h
  have hphrase : "prohibited sales addendum".toList ++ post =
      "prohibited".toList ++ (' ' :: ("sales".toList ++
        (' ' :: ("addendum".toList ++ post)))) := rfl
  rw [hphrase] at h
  have hWP : ∀ c ∈ "prohibited".toList, isJsSpace c = false := by decide
  have hWS : ∀ c ∈ "sales".toList, isJsSpace c = false := by decide
  have hWA : ∀ c ∈ "addendum".toList, isJsSpace c = false := by decide
  have hspc : isJsSpace ' ' = true := by decide
  rcases collapse_peel_word isJsSpace hspc t _ hWP b _ h with
    ⟨sp0, t1, ht, hsp0, h1⟩
  rcases collapse_peel_space isJsSpace hspc t1 _ h1 with
    ⟨sp1, t2, ht1, hne1, hsp1, h2⟩
  rcases collapse_peel_word isJsSpace hspc t2 _ hWS false _ h2 with
    ⟨sp2, t3, ht2, hsp2, h3⟩
  rcases collapse_peel_space isJsSpace hspc t3 _ h3 with
    ⟨sp3, t4, ht3, hne3, hsp3, h4⟩
  rcases collapse_peel_word isJsSpace hspc t4 _ hWA false _ h4 with
    ⟨sp4, t5, ht4, hsp4, h5⟩
  have hT : t = sp0 ++ ("prohibited".toList ++ ((sp1 ++ sp2) ++
      ("sales".toList ++ ((sp3 ++ sp4) ++ ("addendum".toList ++ t5))))) := by
    rw [ht, ht1, ht2, ht3, ht4]
    simp [List.append_assoc]
  refine testAux_iff.mpr ⟨sp0, _, hT, ?_⟩
  apply prohibitedRe_at
  · intro hcontra
    rcases List.append_eq_nil.mp hcontra with ⟨hc1, -⟩
    exact hne1 hc1
  · intro x hx
    rcases List.mem_append.mp hx with hx2 | hx2
    · exact hsp1 x hx2
    · exact hsp2 x hx2
  · intro hcontra
    rcases List.append_eq_nil.mp hcontra with ⟨hc1, -⟩
    exact hne3 hc1
  · intro x hx
    rcases List.mem_append.mp hx with hx2 | hx2
    · exact hsp3 x hx2
    · exact hsp4 x hx2

/-- If the collapsed string contains the prohibited phrase anywhere, the
pattern matches the original string. -/
theorem collapse_contains_prohibited :
    ∀ (t : List Char) (b : Bool) (pre post : List Char) (pc : Option Char),
      collapseAux isJsSpace b t =
        pre ++ ("prohibited sales addendum".toList ++ post) →
      testAux prohibitedRe pc t = true := by
  intro t
  induction t with
  | nil =>
    intro b pre post pc h
    exfalso
    have hnil : collapseAux isJsSpace b ([] : List Char) = [] := by
      cases b <;> rfl
    rw [hnil] at h
    have hlen := congrArg List.length h
    have hp25 : ("prohibited sales addendum".toList).length = 25 := by decide
    simp only [List.length_nil, List.length_append, hp25] at hlen
    omega
  | cons c t2 ih =>
    intro b pre post pc h
    cases pre with
    | nil =>
      simp only [List.nil_append] at h
      exact collapse_match_prohibited (c :: t2) b post pc h
    | cons x pre2 =>
      have hlift : testAux prohibitedRe (some c) t2 = true →
          testAux prohibitedRe pc (c :: t2) = true := by
        intro h2
        show (!(prohibitedRe (pc, c :: t2)).isEmpty ||
          testAux prohibitedRe (some c) t2) = true
        rw [h2, Bool.or_true]
      by_cases hc : isJsSpace c
      · cases b with
        | true =>
          rw [collapseAux_cons_space_run hc] at h
          exact hlift (ih true (x :: pre2) post (some c) h)
        | false =>
          rw [collapseAux_cons_space hc] at h
          simp only [List.cons_append, List.cons.injEq] at h
          exact hlift (ih true pre2 post (some c) h.2)
      · have hc' : isJsSpace c = false := by simpa using hc
        rw [collapseAux_cons_nonspace b hc'] at h
        simp only [List.cons_append, List.cons.injEq] at h
        exact hlift (ih false pre2 post (some c) h.2)

/-- C1.  Label classification is total and order-sensitive with
first-match-wins precedence: every label whose whitespace-normalized,
case-folded text contains `prohibited sales addendum` is classified
`prohibited` (the ProhibitedAddendum category) — never `paa`
(TargetAddendum) or `generic` (GenericAddendum) — even though it also
contains `addendum`; and the labels `Purchase Agreement Addendum` and
`Addendum to Purchase Agreement` are classified `paa` (TargetAddendum). -/
theorem c1_label_classification :
    (∀ label : List Char,
      hasInfix ("prohibited sales addendum".toList)
        (collapseWS (lowerStr label)) = true →
      labelType label = "prohibited".toList) ∧
    labelType ("Purchase Agreement Addendum".toList) = "paa".toList ∧
    labelType ("Addendum to Purchase Agreement".toList) = "paa".toList := by
  refine ⟨?_, by decide, by decide⟩
  intro label h
  rcases hasInfix_iff.mp h with ⟨u, v, huv⟩
  have htest : testM prohibitedRe (lowerStr label) = true := by
    refine collapse_contains_prohibited (lowerStr label) false u v none ?_
    rw [← List.append_assoc]
    exact huv
  unfold labelType
  rw [if_pos htest]

/-- Witness for C1 at the label `Prohibited  Sales Addendum` (with a
double space): the hypothesis holds and the classification is
`prohibited`. -/
theorem c1_label_classification_witness :
    hasInfix ("prohibited sales addendum".toList)
      (collapseWS (lowerStr ("Prohibited  Sales Addendum".toList))) = true ∧
    labelType ("Prohibited  Sales Addendum".toList) = "prohibited".toList :=
  ⟨by decide, c1_label_classification.1 _ (by decide)⟩

end Cwcot
